import Mathlib

/-!
Verification of the timestamp audit/fix tooling in `src/tools/`
(`audit_timestamps.py`, `audit_timestamps_enhanced.py`, `fix_timestamps.py`,
`fix_timestamps_enhanced.py`).

Python strings are modelled as `List Char` (`Str`), and the handful of
string primitives the scripts use (`str.strip`, `str.split(':')`,
`str.split()`, `int(...)`, f-string rendering with `{:02d}`, substring
containment, `str.lower`) are given executable models below.  Machine
integers are `Int`/`Nat`; Python `//` and `%` on a positive divisor are
`Int` `/` and `%` (floor division / nonnegative remainder here, agreeing
with Python for the positive divisors 60 and 3600 used by the scripts).
Python exceptions (an uncaught `ValueError` from `int(...)`) are modelled
with `Option`: `none` means the call raises.

`Python's `int` also accepts underscore digit separators and surrounding
unicode oddities; those corners are irrelevant to time strings and are not
modelled.
-/

namespace CourseTs

/-- Strings as lists of characters. -/
abbrev Str := List Char

/-- Whitespace test used by `str.strip` / `str.split()` / `\s`. -/
def isSpaceCh (c : Char) : Bool := c.isWhitespace

/-- ASCII digit test (`\d` on the ASCII strings handled here). -/
def isDigitCh (c : Char) : Bool := c.isDigit

/-- `str.lower()` (ASCII). -/
def lowerStr (s : Str) : Str := s.map Char.toLower

/-- `str.strip()`: drop leading and trailing whitespace. -/
def strip (s : Str) : Str :=
  ((s.dropWhile isSpaceCh).reverse.dropWhile isSpaceCh).reverse

/-- `str.split(sep)` for a one-character separator: split at every
occurrence, keeping empty chunks (`"a::b".split(":") == ["a","","b"]`). -/
def splitOnChar (sep : Char) : Str → List Str
  | [] => [[]]
  | c :: cs =>
    let r := splitOnChar sep cs
    if c = sep then [] :: r
    else
      match r with
      | h :: t => (c :: h) :: t
      | [] => [[c]]

/-- `s.split(sep)[0]`, i.e. everything before the first occurrence of
`sep` (the whole string if `sep` is absent). -/
def takeBefore (sep : Char) (s : Str) : Str := s.takeWhile (· ≠ sep)

/-- Maximal runs of characters satisfying `p` (used to model regex word
extraction and `str.split()`). -/
def runsP (p : Char → Bool) : Str → List Str
  | [] => []
  | c :: cs =>
    let r := runsP p cs
    if p c then
      match cs with
      | [] => [[c]]
      | d :: _ =>
        if p d then
          match r with
          | w :: ws => (c :: w) :: ws
          | [] => [[c]]
        else [c] :: r
    else r

/-- `str.split()` with no argument: maximal whitespace-free runs. -/
def pySplitWS (s : Str) : List Str := runsP (fun c => !isSpaceCh c) s

/-- Substring containment, Python's `needle in haystack`. -/
def startsWithSeq : Str → Str → Bool
  | [], _ => true
  | _ :: _, [] => false
  | a :: as, b :: bs => a = b && startsWithSeq as bs

/-- Substring containment, Python's `needle in haystack`. -/
def containsSeq (needle : Str) : Str → Bool
  | [] => startsWithSeq needle []
  | c :: cs => startsWithSeq needle (c :: cs) || containsSeq needle cs

/-- Insert into a sorted list, before the first element not below the
inserted one (used from the right, this keeps the sort stable). -/
def insertB (le : α → α → Bool) (x : α) : List α → List α
  | [] => [x]
  | y :: ys => if le x y then x :: y :: ys else y :: insertB le x ys

/-- Python's `list.sort(key=...)` is a stable sort; for a total preorder
a stable sort's output is uniquely determined, so this right-fold
insertion sort is extensionally the same function. -/
def sortBy (le : α → α → Bool) (l : List α) : List α := l.foldr (insertB le) []

/-- Value of a digit character. -/
def digitVal (c : Char) : Nat := c.toNat - 48

/-- Decimal value of a digit string (no sign). -/
def digitsVal (l : Str) : Nat := l.foldl (fun a c => a * 10 + digitVal c) 0

/-- Parse a nonempty all-digit string. -/
def pyDigits? (l : Str) : Option Nat :=
  if l ≠ [] ∧ l.all isDigitCh then some (digitsVal l) else none

/-- Python `int(s)`: strip whitespace, optional sign, decimal digits;
`none` models a raised `ValueError`. -/
def pyInt? (s : Str) : Option Int :=
  if strip s = [] then none
  else if (strip s).headI = '-' then
    (pyDigits? (strip s).tail).map (fun n => -(n : Int))
  else if (strip s).headI = '+' then
    (pyDigits? (strip s).tail).map (fun n => (n : Int))
  else (pyDigits? (strip s)).map (fun n => (n : Int))

/-- The decimal digit character for `d % 10`. -/
def digitChar (d : Nat) : Char := Char.ofNat (48 + d % 10)

/-- Decimal rendering of a natural number (helper with accumulator,
fuelled so that it reduces in the kernel; the fuel always bounds the
number). -/
def natToCharsAux : Nat → Nat → Str → Str
  | 0, _, acc => acc
  | fuel + 1, n, acc =>
    if n < 10 then digitChar n :: acc
    else natToCharsAux fuel (n / 10) (digitChar n :: acc)

/-- Decimal rendering of a natural number, as `str`/f-strings produce. -/
def natToChars (n : Nat) : Str := natToCharsAux (n + 1) n []

/-- `str(i)` for an integer. -/
def intToChars (i : Int) : Str :=
  if i < 0 then '-' :: natToChars i.natAbs else natToChars i.toNat

/-- Python `f"{i:02d}"`: zero-pad to (total) width 2. -/
def pad02 (i : Int) : Str :=
  if 0 ≤ i ∧ i ≤ 9 then '0' :: natToChars i.toNat else intToChars i

/-- The f-string `f"{h}:{m:02d}:{s:02d}"` shared by all four scripts. -/
def renderHMS (h m s : Int) : Str :=
  intToChars h ++ ':' :: (pad02 m ++ ':' :: pad02 s)

/-- One attempt of the regex `\s*\([^)]+\)` at the current position:
whitespace, `'('`, at least one non-`')'` character, `')'`; on success
returns the remainder of the string. -/
def matchParen (l : Str) : Option Str :=
  if (l.dropWhile isSpaceCh) ≠ [] ∧ (l.dropWhile isSpaceCh).headI = '(' then
    if ((l.dropWhile isSpaceCh).tail).takeWhile (· ≠ ')') = [] then none
    else
      if ((l.dropWhile isSpaceCh).tail).dropWhile (· ≠ ')') ≠ [] ∧
          (((l.dropWhile isSpaceCh).tail).dropWhile (· ≠ ')')).headI = ')' then
        some ((((l.dropWhile isSpaceCh).tail).dropWhile (· ≠ ')')).tail)
      else none
  else none

/-- Helper for `cleanParens`, fuelled to make termination evident; the
fuel is always at least the length of the list. -/
def cleanParensAux : Nat → Str → Str
  | 0, l => l
  | fuel + 1, l =>
    match l with
    | [] => []
    | c :: cs =>
      match matchParen l with
      | some rest => cleanParensAux fuel rest
      | none => c :: cleanParensAux fuel cs

/-- `re.sub(r'\s*\([^)]+\)', '', s)`: delete every parenthesised
annotation (with any preceding whitespace), scanning left to right. -/
def cleanParens (s : Str) : Str := cleanParensAux s.length s


/-! ## Data model

The course JSON document: weeks contain lessons, lessons carry a
`duration` string, free-text `content`, and a list of timestamp entries,
each with `time`, `label` and `description` strings.  Dictionary fields
are total here; the scripts read them with `.get(key, "")` defaults. -/

/-- One timestamp annotation entry. -/
structure TS where
  time : Str
  label : Str
  description : Str
deriving DecidableEq, Repr

/-- One lesson record (the fields the audit/fix scripts read). -/
structure Lesson where
  id : Str
  title : Str
  duration : Str
  content : Str
  timestamps : List TS
deriving DecidableEq, Repr

/-- One week record. -/
structure Week where
  id : Str
  lessons : List Lesson
deriving DecidableEq, Repr

/-- The whole course document. -/
structure Course where
  weeks : List Week
deriving DecidableEq, Repr

/-! ## `fix_timestamps_enhanced.py` -/

namespace FixEnh

/-- `MIN_SEPARATION_S = 15` (fix_timestamps_enhanced.py line 12). -/
def MIN_SEPARATION_S : Int := 15

/-- `GENERIC_TERMS` (fix_timestamps_enhanced.py lines 20-23); a Python
set used only for membership/substring tests, so order is irrelevant. -/
def GENERIC_TERMS : List Str :=
  ["overview".toList, "introduction".toList, "discussion".toList,
   "recap".toList, "general".toList, "review".toList, "summary".toList,
   "basics".toList, "fundamentals".toList, "concepts".toList]

/-- `normalize_time` (fix_timestamps_enhanced.py lines 39-64).  `none`
models an uncaught `ValueError` from `int(...)` (the two- and three-part
branches have no try/except). -/
def normalize_time (time_str : Str) : Option Str :=
  match splitOnChar ':' (cleanParens (strip time_str)) with
  | [p0, p1] => do
    let minutes ← pyInt? p0
    let seconds ← pyInt? p1
    let hours := minutes / 60
    let minutes2 := minutes % 60
    pure (renderHMS hours minutes2 seconds)
  | [p0, p1, p2] => do
    let hours ← pyInt? p0
    let minutes ← pyInt? p1
    let seconds ← pyInt? p2
    let minutes2 := minutes + seconds / 60
    let seconds2 := seconds % 60
    let hours2 := hours + minutes2 / 60
    let minutes3 := minutes2 % 60
    pure (renderHMS hours2 minutes3 seconds2)
  | _ => pure time_str

/-- The value computation of `time_to_seconds` (fix_timestamps_enhanced.py
lines 69-72): value of a three-part split, else `0`. -/
def parse3val (normalized : Str) : Option Int :=
  match splitOnChar ':' normalized with
  | [p0, p1, p2] => do
    let h ← pyInt? p0
    let m ← pyInt? p1
    let s ← pyInt? p2
    pure (h * 3600 + m * 60 + s)
  | _ => pure 0

/-- `time_to_seconds` (fix_timestamps_enhanced.py lines 66-72). -/
def time_to_seconds (time_str : Str) : Option Int := do
  let normalized ← normalize_time time_str
  parse3val normalized

/-- `seconds_to_time` (fix_timestamps_enhanced.py lines 74-79). -/
def seconds_to_time (seconds : Int) : Str :=
  renderHMS (seconds / 3600) (((seconds % 3600)) / 60) (seconds % 60)

/-- One entry of the `changes` list built by `fix_lesson_timestamps`
(the strings appended to `changes_summary`, reduced to their data). -/
inductive Change where
  | fixedDuration (old new : Str)
  | normalizedTime (old new : Str)
  | mergedClose (a b : Str)
  | addedCoverage (t : Str)
  | rewroteLabel (time old new : Str)
  | rewroteDesc (time old new : Str)
  | manualReview
deriving DecidableEq, Repr

/-- `generate_smart_label` (fix_timestamps_enhanced.py lines 104-162). -/
def generate_smart_label (timestamp_idx : Nat) (_lesson_title : Str)
    (keywords : List Str) (existing_labels : List Str) : Str :=
  let relevant_tech := keywords.filter (fun k => !(GENERIC_TERMS.contains k))
  let early : Option Str :=
    if timestamp_idx = 0 then
      if existing_labels.contains "introduction".toList then none
      else some "Course Introduction".toList
    else if timestamp_idx = 1 then
      if ["setup".toList, "config".toList, "environment".toList].any
          (fun k => relevant_tech.contains k) then
        some "Environment Setup".toList
      else none
    else none
  match early with
  | some l => l
  | none =>
    if relevant_tech.contains "api".toList then
      if relevant_tech.contains "build".toList then "Build API".toList
      else if relevant_tech.contains "test".toList then "Test API".toList
      else "API Configuration".toList
    else if relevant_tech.contains "rag".toList then
      if relevant_tech.contains "implement".toList then "Implement RAG".toList
      else if relevant_tech.contains "vector".toList then "Vector Storage".toList
      else "RAG Pipeline".toList
    else if relevant_tech.contains "agent".toList then
      if relevant_tech.contains "multi".toList then "Multi-Agent System".toList
      else if relevant_tech.contains "tool".toList then "Agent Tools".toList
      else "Agent Architecture".toList
    else if relevant_tech.contains "deploy".toList then
      "Production Deployment".toList
    else if relevant_tech.contains "test".toList then
      "Testing Strategy".toList
    else
      let position_labels : List Str :=
        ["Core Concepts".toList, "Implementation Details".toList,
         "Practical Example".toList, "Code Walkthrough".toList,
         "Best Practices".toList, "Common Patterns".toList,
         "Advanced Topics".toList, "Troubleshooting".toList,
         "Performance Tips".toList, "Security Considerations".toList,
         "Integration Points".toList, "Next Steps".toList]
      match position_labels.find? (fun l => !(existing_labels.contains l)) with
      | some l => l
      | none => "Section ".toList ++ natToChars (timestamp_idx + 1)

/-- `" and ".join(l)`. -/
def joinAnd : List Str → Str
  | [] => []
  | [w] => w
  | w :: rest => w ++ " and ".toList ++ joinAnd rest

/-- `generate_smart_description` (fix_timestamps_enhanced.py lines
164-208).  The `descriptions` dict is iterated in insertion order. -/
def generate_smart_description (label : Str) (_lesson_title : Str)
    (keywords : List Str) : Str :=
  let label_lower := lowerStr label
  let title_keywords := (keywords.filter (fun w => w.length > 4)).take 2
  let topic := if title_keywords ≠ [] then joinAnd title_keywords
               else "concepts".toList
  let descriptions : List (Str × Str) :=
    [("course introduction".toList,
      "Overview of ".toList ++ topic ++ " and learning objectives".toList),
     ("environment setup".toList,
      "Configure development tools for ".toList ++ topic),
     ("core concepts".toList,
      "Fundamental principles of ".toList ++ topic ++ " explained".toList),
     ("implementation details".toList,
      "Step-by-step coding of ".toList ++ topic ++ " features".toList),
     ("practical example".toList,
      "Real-world application of ".toList ++ topic ++ " techniques".toList),
     ("code walkthrough".toList,
      "Line-by-line explanation of ".toList ++ topic ++ " implementation".toList),
     ("best practices".toList,
      "Industry standards for ".toList ++ topic ++ " development".toList),
     ("api configuration".toList,
      "Set up endpoints and authentication for ".toList ++ topic),
     ("rag pipeline".toList,
      "Build retrieval and generation components".toList),
     ("vector storage".toList,
      "Configure embeddings and similarity search".toList),
     ("agent architecture".toList,
      "Design autonomous decision-making systems".toList),
     ("multi-agent system".toList,
      "Coordinate multiple AI agents effectively".toList),
     ("production deployment".toList,
      "Deploy ".toList ++ topic ++ " to cloud infrastructure".toList),
     ("testing strategy".toList,
      "Validate ".toList ++ topic ++ " with comprehensive tests".toList),
     ("performance tips".toList,
      "Optimize ".toList ++ topic ++ " for speed and efficiency".toList),
     ("troubleshooting".toList,
      "Debug common ".toList ++ topic ++ " implementation issues".toList),
     ("next steps".toList,
      "Advanced topics and further ".toList ++ topic ++ " resources".toList)]
  match descriptions.find? (fun kv => containsSeq kv.1 label_lower) with
  | some kv => kv.2.take 90
  | none =>
    if containsSeq "build".toList label_lower ||
        containsSeq "create".toList label_lower then
      "Build functional ".toList ++ topic ++ " with error handling".toList
    else if containsSeq "test".toList label_lower then
      "Validate ".toList ++ topic ++ " functionality and edge cases".toList
    else if containsSeq "deploy".toList label_lower then
      "Deploy ".toList ++ topic ++ " to production environment".toList
    else if containsSeq "configure".toList label_lower ||
        containsSeq "setup".toList label_lower then
      "Configure ".toList ++ topic ++ " parameters and dependencies".toList
    else
      "Learn ".toList ++ topic ++ " implementation techniques".toList

/-- Result of `fix_lesson_timestamps`: the normalized duration string,
the rebuilt timestamp list, and the change log. -/
structure FixResult where
  updatedDuration : Str
  updated : List TS
  changes : List Change
deriving DecidableEq, Repr

/-- Step 2 (lines 229-233): normalize every entry's time in order,
recording changes; `none` models an uncaught `ValueError`. -/
def normalizeAll : List TS → Option (List TS × List Change)
  | [] => some ([], [])
  | t :: rest => do
    let nt ← normalize_time t.time
    let (rs, cs) ← normalizeAll rest
    let ch := if t.time ≠ nt then [Change.normalizedTime t.time nt] else []
    pure ({ t with time := nt } :: rs, ch ++ cs)

/-- Step 3 (line 236): keep entries with `time_to_seconds(time) <
duration_seconds` (strict), evaluating left to right. -/
def filterKeyLt (durSec : Int) : List TS → Option (List TS)
  | [] => some []
  | t :: rest => do
    let k ← time_to_seconds t.time
    let rs ← filterKeyLt durSec rest
    pure (if k < durSec then t :: rs else rs)

/-- Key pre-computation performed by `list.sort(key=...)` (line 239):
pair every entry with its `time_to_seconds` value. -/
def decorate : List TS → Option (List (Int × TS))
  | [] => some []
  | t :: rest => do
    let k ← time_to_seconds t.time
    let rs ← decorate rest
    pure ((k, t) :: rs)

/-- The comparison used by both sorts: by seconds value, stable. -/
def leKey (a b : Int × TS) : Bool := a.1 ≤ b.1

/-- Step 5 (lines 241-259): scan the sorted list; each head absorbs every
following entry whose seconds value is within `MIN_SEPARATION_S` of the
head's value, concatenating descriptions with `"; "`. -/
def mergeDenseAux : Nat → List (Int × TS) → List (Int × TS) × List Change
  | 0, _ => ([], [])
  | _ + 1, [] => ([], [])
  | fuel + 1, (k, t) :: rest =>
    let near := rest.takeWhile (fun p => decide (p.1 - k < MIN_SEPARATION_S))
    let far := rest.dropWhile (fun p => decide (p.1 - k < MIN_SEPARATION_S))
    let newDesc := near.foldl
      (fun d p => d ++ "; ".toList ++ p.2.description) t.description
    let chs := near.map (fun p => Change.mergedClose t.time p.2.time)
    let r := mergeDenseAux fuel far
    ((k, { t with description := newDesc }) :: r.1, chs ++ r.2)

/-- Step 5 entry point: the fuel (one per consumed head) always covers
the list length. -/
def mergeDense (l : List (Int × TS)) : List (Int × TS) × List Change :=
  mergeDenseAux l.length l

/-- Step 6 scan (lines 266-279): for each consecutive pair with gap
exceeding `duration_seconds * 0.25` (exactly `4 * gap > duration_seconds`
over the integers), synthesize a `TO_REVIEW` entry at the gap midpoint. -/
def gapFills (durSec : Int) : List (Int × TS) → Option (List (Int × TS) × List Change)
  | a :: b :: rest => do
    let gap := b.1 - a.1
    let (gs, cs) ← gapFills durSec (b :: rest)
    if 4 * gap > durSec then
      let mid := a.1 + gap / 2
      let e : TS := ⟨seconds_to_time mid, "TO_REVIEW".toList,
        "Section needs manual review for content".toList⟩
      let k ← time_to_seconds e.time
      pure ((k, e) :: gs, Change.addedCoverage e.time :: cs)
    else
      pure (gs, cs)
  | _ => pure ([], [])

/-- Step 8 (lines 288-323): rewrite weak labels/descriptions, carrying
the index and the accumulated `existing_labels`. -/
def rewriteAll (kw : List Str) (title : Str) :
    Nat → List Str → List TS → List TS × List Change
  | _, _, [] => ([], [])
  | i, existing, t :: rest =>
    let labelWords := pySplitWS t.label
    let isGeneric := GENERIC_TERMS.any (fun g => containsSeq g (lowerStr t.label))
    let needsLabel :=
      decide (labelWords.length < 2) || decide (labelWords.length > 5) ||
      isGeneric || existing.contains t.label ||
      decide (t.label = "TO_REVIEW".toList)
    let (label2, chL) :=
      if needsLabel && !decide (t.label = "TO_REVIEW".toList) then
        let nl := generate_smart_label i title kw existing
        (nl, [Change.rewroteLabel t.time t.label nl])
      else (t.label, ([] : List Change))
    let existing2 := existing ++ [label2]
    let descWords := pySplitWS t.description
    let needsDesc :=
      decide (descWords.length < 5) || decide (descWords.length > 15) ||
      decide (lowerStr t.description = lowerStr t.label) ||
      (containsSeq "overview".toList (lowerStr t.description) &&
        decide (descWords.length < 8))
    let (desc2, chD) :=
      if needsDesc then
        let nd := generate_smart_description label2 title kw
        (nd, [Change.rewroteDesc t.time t.description nd])
      else (t.description, ([] : List Change))
    let (rs, cs) := rewriteAll kw title (i + 1) existing2 rest
    ({ t with label := label2, description := desc2 } :: rs, chL ++ chD ++ cs)

/-- Step 6/7 composite (lines 262-286): when more than one entry
remains, compute the gap fills and re-sort the union by seconds value;
otherwise leave the merged list as is. -/
def coverageStep (durSec : Int) (merged : List (Int × TS)) :
    Option (List (Int × TS) × List Change) :=
  if merged.length > 1 then do
    let gc ← gapFills durSec merged
    pure (sortBy leKey (merged ++ gc.1), gc.2)
  else pure (merged, ([] : List Change))

/-- `fix_lesson_timestamps` (fix_timestamps_enhanced.py lines 210-334).
`kw` stands for `extract_keywords_from_content(content, title)`, whose
order comes from iterating a Python `set` and is interpreter-dependent;
every theorem below holds for all values of `kw`.  The unused
`audit_data` parameter of the Python function is dropped.  The keys used
from step 4 onward are the (deterministic) `time_to_seconds` values the
script recomputes at each step; they are computed once here
(`decorate`) and reused, which is justified by `time_to_seconds` being a
pure function of the unchanged `time` strings. -/
def fix_lesson_timestamps (kw : List Str) (lesson : Lesson) : Option FixResult := do
  let duration2 ← normalize_time lesson.duration
  let durationSeconds ← time_to_seconds duration2
  let ch1 := if lesson.duration ≠ duration2 then
    [Change.fixedDuration lesson.duration duration2] else []
  let p2 ← normalizeAll lesson.timestamps
  let ts3 ← filterKeyLt durationSeconds p2.1
  let keyed ← decorate ts3
  let sorted1 := sortBy leKey keyed
  let mr := mergeDense sorted1
  let fc ← coverageStep durationSeconds mr.1
  let ts7 := fc.1.map (fun p => p.2)
  let rr := rewriteAll kw lesson.title 0 [] ts7
  let chMR := if rr.1.any (fun t => t.label = "TO_REVIEW".toList) then
    [Change.manualReview] else []
  pure ⟨duration2, rr.1, ch1 ++ p2.2 ++ mr.2 ++ fc.2 ++ rr.2 ++ chMR⟩

/-- The per-lesson mutation done by `main` with `dry_run=False`
(fix_timestamps_enhanced.py lines 374-384): if the change log is
nonempty, install the rebuilt timestamp list, and install the normalized
duration when a "Fixed duration format" change was recorded. -/
def applyFix (kw : List Str) (lesson : Lesson) : Option Lesson := do
  let r ← fix_lesson_timestamps kw lesson
  if r.changes = [] then pure lesson
  else
    let hasDur := r.changes.any (fun c =>
      match c with
      | Change.fixedDuration _ _ => true
      | _ => false)
    pure { lesson with
      timestamps := r.updated,
      duration := if hasDur then r.updatedDuration else lesson.duration }

/-- The whole-document pass of `main` with `dry_run=False`: apply
`applyFix` to every lesson of every week, in order.  `kwOf` supplies the
per-lesson keyword list (see `fix_lesson_timestamps`). -/
def applyFixCourse (kwOf : Lesson → List Str) (c : Course) : Option Course := do
  let ws ← c.weeks.mapM (fun w => do
    let ls ← w.lessons.mapM (fun l => applyFix (kwOf l) l)
    pure { w with lessons := ls })
  pure ⟨ws⟩

/-- File-level events of `main` (fix_timestamps_enhanced.py lines
336-410) in program order: with `dry_run=False` the backup copy (lines
339-347) happens before the course document is read and later
overwritten (lines 392-394); the trailing report write (lines 406-409)
happens in both modes. -/
inductive FileEvent where
  | backupWrite
  | courseRead
  | auditRead
  | courseWrite
  | reportWrite
deriving DecidableEq, Repr

/-- Ordered file events of one `main(dry_run)` run. -/
def mainEvents (dryRun : Bool) : List FileEvent :=
  (if dryRun then [] else [FileEvent.backupWrite]) ++
  [FileEvent.courseRead, FileEvent.auditRead] ++
  (if dryRun then [] else [FileEvent.courseWrite]) ++
  [FileEvent.reportWrite]

end FixEnh

/-! ## `fix_timestamps.py` -/

/-- Word characters of the regexes `[A-Za-z0-9_]+` (audit) and the `\b`
boundary semantics (fixer): letters, digits, underscore. -/
def wordCharU (c : Char) : Bool := c.isAlphanum || c = '_'

namespace FixBasic

/-- `MIN_SEP_S = 8` (fix_timestamps.py line 16; `process_lesson` reads
this module constant, not `main`'s parameter). -/
def MIN_SEP_S : Int := 8

/-- `GENERIC_LABELS` (fix_timestamps.py line 25). -/
def GENERIC_LABELS : List Str :=
  ["overview".toList, "discussion".toList, "recap".toList, "intro".toList,
   "general".toList, "introduction".toList, "review".toList]

/-- Second component of regex `^(?:(\d+):)?([0-5]?\d):([0-5]\d)$`:
one digit, or two digits with the first in `0..5`. -/
def reMM (p : Str) : Bool :=
  match p with
  | [c] => isDigitCh c
  | [c1, c2] => ('0' ≤ c1 && c1 ≤ '5') && isDigitCh c2
  | _ => false

/-- Third component of the regex: exactly `[0-5]\d`. -/
def reSS (p : Str) : Bool :=
  match p with
  | [c1, c2] => ('0' ≤ c1 && c1 ≤ '5') && isDigitCh c2
  | _ => false

/-- `DURATION_CLEAN_RE.match` (fix_timestamps.py line 24), expressed on
the colon-split parts (the regex allows at most two literal colons, and
its `\d+`/`[0-5]?\d`/`[0-5]\d` groups are exactly the part shapes
below); returns the `(h, m, s)` component values. -/
def matchClean (s : Str) : Option (Nat × Nat × Nat) :=
  match splitOnChar ':' s with
  | [p1, p2] =>
    if reMM p1 && reSS p2 then some (0, digitsVal p1, digitsVal p2) else none
  | [p0, p1, p2] =>
    if (decide (p0 ≠ []) && p0.all isDigitCh) && reMM p1 && reSS p2 then
      some (digitsVal p0, digitsVal p1, digitsVal p2)
    else none
  | _ => none

/-- `normalize_time` (fix_timestamps.py lines 27-62): returns the
normalized string and the change flag.  The two-part fallback catches
`ValueError`, so this function is total. -/
def normalize_time (time_str : Str) : Str × Bool :=
  match matchClean (strip (takeBefore '(' (strip time_str))) with
  | some (h, m, s) =>
    let hm := if m ≥ 60 then (h + m / 60, m % 60) else (h, m)
    let normalized := renderHMS (hm.1 : Int) (hm.2 : Int) (s : Int)
    (normalized, decide (normalized ≠ strip (takeBefore '(' (strip time_str))))
  | none =>
    match splitOnChar ':' (strip (takeBefore '(' (strip time_str))) with
    | [p0, p1] =>
      match pyInt? p0, pyInt? p1 with
      | some minutes, some seconds =>
        (renderHMS (minutes / 60) (minutes % 60) seconds, true)
      | _, _ => (time_str, false)
    | _ => (time_str, false)

/-- The value computation of `to_seconds` (fix_timestamps.py lines
67-74): three parts parsed by `int` (errors caught), else `None`. -/
def parse3 (normalized : Str) : Option Int :=
  match splitOnChar ':' normalized with
  | [p0, p1, p2] =>
    match pyInt? p0, pyInt? p1, pyInt? p2 with
    | some h, some m, some s => some (h * 3600 + m * 60 + s)
    | _, _, _ => none
  | _ => none

/-- `to_seconds` (fix_timestamps.py lines 64-74): `none` is a reported
parse failure (the `except ValueError` path or a non-3-part split). -/
def to_seconds (time_str : Str) : Option Int :=
  parse3 (normalize_time time_str).1

/-- `extract_words` (fix_timestamps.py lines 76-78):
`re.findall(r'\b[a-zA-Z0-9]+\b', text.lower())`.  A maximal
alphanumeric run adjacent to an underscore has no `\b` boundary there,
so such runs yield no match; the matches are exactly the maximal
`[A-Za-z0-9_]` runs that contain no underscore. -/
def extract_words (text : Str) : List Str :=
  (runsP wordCharU (lowerStr text)).filter (fun w => !(w.contains '_'))

/-- `word_count` (fix_timestamps.py lines 80-82). -/
def word_count (text : Str) : Nat := (extract_words text).length

/-- `is_weak_label` (fix_timestamps.py lines 84-95). -/
def is_weak_label (label : Str) : Bool :=
  if label = [] then true
  else
    let wc := word_count label
    if wc < 2 || wc > 5 then true
    else
      let words := (extract_words label).dedup
      if words.all (fun w => GENERIC_LABELS.contains w) then true
      else false

/-- `is_weak_description` (fix_timestamps.py lines 97-111).  The float
test `overlap > 0.7` with `overlap = inter / len(desc_words)` is exact
as `10 * inter > 7 * len(desc_words)`: the branch is only reached with
`1 ≤ len(desc_words) ≤ 15`, where no ratio other than 7/10 itself comes
within double-precision error of 0.7. -/
def is_weak_description (desc label : Str) : Bool :=
  if desc = [] then true
  else
    let wc := word_count desc
    if wc < 5 || wc > 15 then true
    else
      let label_words := (extract_words label).dedup
      let desc_words := (extract_words desc).dedup
      if label_words ≠ [] ∧ desc_words ≠ [] then
        let inter := (desc_words.filter (fun w => label_words.contains w)).length
        if 10 * inter > 7 * desc_words.length then true else false
      else false

/-- `' '.join(l)`. -/
def joinSpace : List Str → Str
  | [] => []
  | [w] => w
  | w :: rest => w ++ ' ' :: joinSpace rest

/-- Python `str.title()`: a letter following a non-letter is uppercased,
a letter following a letter is lowercased. -/
def titleCaseAux : Bool → Str → Str
  | _, [] => []
  | prevAlpha, c :: cs =>
    if c.isAlpha then
      (if prevAlpha then c.toLower else c.toUpper) :: titleCaseAux true cs
    else c :: titleCaseAux false cs

/-- Python `str.title()`. -/
def titleCase (s : Str) : Str := titleCaseAux false s

/-- `rewrite_label` (fix_timestamps.py lines 113-150).  The first two
`if` blocks can fall through when their outer test succeeds but no
inner case matches. -/
def rewrite_label (_old_label : Str) (context : Str) : Str :=
  let words := extract_words (lowerStr context)
  let has := fun (w : String) => words.contains w.toList
  let early : Option Str :=
    if ["configure", "config", "setup", "setting"].any has then
      if has "database" || has "pinecone" then some "Configure Database".toList
      else if has "api" then some "API Setup".toList
      else if has "environment" || has "env" then some "Environment Setup".toList
      else none
    else none
  match early with
  | some l => l
  | none =>
    let early2 : Option Str :=
      if ["implement", "build", "create"].any has then
        if has "function" then some "Implement Function".toList
        else if has "class" then some "Build Class".toList
        else if has "pipeline" then some "Create Pipeline".toList
        else none
      else none
    match early2 with
    | some l => l
    | none =>
      if has "test" || has "testing" then "Testing Process".toList
      else if has "deploy" || has "deployment" then "Deployment Steps".toList
      else
        let tech_terms := words.filter
          (fun w => decide (w.length > 4) && !(GENERIC_LABELS.contains w))
        if tech_terms.length ≥ 2 then titleCase (joinSpace (tech_terms.take 3))
        else "Key Concepts".toList

/-- `rewrite_description` (fix_timestamps.py lines 152-182). -/
def rewrite_description (_old_desc label context : Str) : Str :=
  let words := extract_words (lowerStr context)
  let label_lower := lowerStr label
  let inLabel := fun (w : String) => containsSeq w.toList label_lower
  if inLabel "setup" || inLabel "configure" then
    "Set up required components and configuration parameters".toList
  else if inLabel "implement" || inLabel "build" then
    "Build core functionality with error handling".toList
  else if inLabel "test" then
    "Validate implementation with comprehensive test cases".toList
  else if inLabel "deploy" then
    "Deploy to production environment with monitoring".toList
  else
    let action_words := ["create", "build", "implement", "configure",
      "set", "deploy", "test", "validate"]
    let found_actions := (action_words.map (fun w => w.toList)).filter
      (fun w => words.contains w)
    match found_actions with
    | a :: _ =>
      "Learn to ".toList ++ a ++ " and apply best practices".toList
    | [] => "Understand key concepts and practical applications".toList

/-- The de-densification scan (fix_timestamps.py lines 230-250): walk
consecutive pairs of the time-sorted view; where a pair is closer than
`MIN_SEP_S` and the earlier entry has not already been removed, remove
the one with the shorter description (the later one on a tie). -/
def dedenseScanAux (prev : Int × Nat × TS) (acc : List Nat)
    (pairs : List (Str × Str)) :
    List (Int × Nat × TS) → List Nat × List (Str × Str)
  | [] => (acc, pairs)
  | curr :: rest =>
    let ps := prev.1
    let pi := prev.2.1
    let pts := prev.2.2
    let cs := curr.1
    let ci := curr.2.1
    let cts := curr.2.2
    if !(acc.contains pi) && decide (cs - ps < MIN_SEP_S) then
      if cts.description.length > pts.description.length then
        dedenseScanAux curr (acc ++ [pi]) (pairs ++ [(pts.time, cts.time)]) rest
      else
        dedenseScanAux curr (acc ++ [ci]) (pairs ++ [(pts.time, cts.time)]) rest
    else dedenseScanAux curr acc pairs rest

/-- The sorted, parse-filtered, index-decorated view plus the scan
(fix_timestamps.py lines 219-250); returns the removed original indices
and the logged pairs. -/
def dedensify (ts : List TS) : List Nat × List (Str × Str) :=
  let twi := ts.enum.filterMap
    (fun p => (to_seconds p.2.time).map (fun s => (s, p.1, p.2)))
  let sortedTwi := sortBy (fun a b => a.1 ≤ b.1) twi
  match sortedTwi with
  | [] => ([], [])
  | first :: rest => dedenseScanAux first [] [] rest

/-- The per-entry rewrite of step 4 (fix_timestamps.py lines 260-287):
returns the updated entry plus the optional label and description
before/after pairs. -/
def rewriteEntry (content : Str) (t : TS) :
    TS × Option (Str × Str) × Option (Str × Str) :=
  let labLog :=
    if is_weak_label t.label then
      some (t.label, rewrite_label t.label (content.take 500))
    else none
  let descLog :=
    if is_weak_description t.description t.label then
      let nd0 := rewrite_description t.description t.label (content.take 500)
      let nd := if word_count nd0 > 15 then joinSpace ((pySplitWS nd0).take 15)
                else nd0
      some (t.description, nd)
    else none
  ({ t with
      label := match labLog with | some p => p.2 | none => t.label,
      description := match descLog with | some p => p.2 | none => t.description },
   labLog, descLog)

/-- One logged rewrite (an element of `result["rewritten"]`). -/
structure RewriteLog where
  time : Str
  labelChange : Option (Str × Str)
  descChange : Option (Str × Str)
deriving DecidableEq, Repr

/-- The per-lesson report of `process_lesson`. -/
structure BasicResult where
  duration_changed : Bool
  normalized_times : List (Str × Str)
  removed_dense_pairs : List (Str × Str)
  rewritten : List RewriteLog
deriving DecidableEq, Repr

/-- `process_lesson` (fix_timestamps.py lines 184-289).  Returns the
lesson as left in memory (identical to the input when `dryRun`) and the
report.  Python mutates the timestamp dicts in place; here each
mutation site is reproduced functionally. -/
def process_lesson (dryRun : Bool) (lesson : Lesson) : Lesson × BasicResult :=
  -- step 1: duration
  let durStep :=
    if lesson.duration ≠ [] then
      let nd := normalize_time lesson.duration
      if nd.2 then
        (if dryRun then lesson else { lesson with duration := nd.1 },
         true, [(lesson.duration, nd.1)])
      else (lesson, false, ([] : List (Str × Str)))
    else (lesson, false, [])
  let lesson1 := durStep.1
  -- step 2: normalize timestamp times (mutating only when ¬dryRun)
  let normPairs := lesson1.timestamps.map (fun t => (t, normalize_time t.time))
  let tnorms := (normPairs.filter (fun p => p.2.2)).map
    (fun p => (p.1.time, p.2.1))
  let ts2 := if dryRun then lesson1.timestamps
    else normPairs.map (fun p => if p.2.2 then { p.1 with time := p.2.1 } else p.1)
  let lesson2 := if dryRun then lesson1 else { lesson1 with timestamps := ts2 }
  -- step 3: de-densify
  let dedenseStep :=
    if ts2.length > 1 then
      let dr := dedensify ts2
      if dr.1 ≠ [] ∧ ¬dryRun then
        let kept := (ts2.enum.filter (fun p => !(dr.1.contains p.1))).map
          (fun p => p.2)
        (kept, dr.2, { lesson2 with timestamps := kept })
      else (ts2, dr.2, lesson2)
    else (ts2, [], lesson2)
  let timestamps3 := dedenseStep.1
  let lesson3 := dedenseStep.2.2
  -- step 4: rewrite weak summaries
  let rewritten := timestamps3.map (fun t => (t, rewriteEntry lesson.content t))
  let logs := (rewritten.filter
      (fun p => p.2.2.1.isSome || p.2.2.2.isSome)).map
    (fun p => RewriteLog.mk p.1.time p.2.2.1 p.2.2.2)
  let lesson4 := if dryRun then lesson3
    else { lesson3 with timestamps := rewritten.map (fun p => p.2.1) }
  (lesson4, ⟨durStep.2.1, durStep.2.2 ++ tnorms, dedenseStep.2.1, logs⟩)

/-- File-level events of `main` (fix_timestamps.py lines 367-475) in
program order with the given `dry_run`: read the course (line 381),
back it up when not a dry run (lines 415-416), overwrite it when not a
dry run (lines 461-463), then write the logs (line 466). -/
inductive FileEvent where
  | courseRead
  | backupWrite
  | courseWrite
  | logWrite
deriving DecidableEq, Repr

/-- Ordered file events of one `main` run. -/
def mainEvents (dryRun : Bool) : List FileEvent :=
  [FileEvent.courseRead] ++
  (if dryRun then [] else [FileEvent.backupWrite]) ++
  (if dryRun then [] else [FileEvent.courseWrite]) ++
  [FileEvent.logWrite]

end FixBasic

/-! ## `audit_timestamps.py` -/

namespace AuditBasic

/-- `GENERIC_LABELS` (audit_timestamps.py line 21). -/
def GENERIC_LABELS : List Str :=
  ["overview".toList, "discussion".toList, "recap".toList, "intro".toList,
   "general".toList]

/-- `TIME_RE.match` of `^(?:(\d+):)?([0-5]?\d):([0-5]\d)$`
(audit_timestamps.py line 20), on the stripped string, returning the
component values (same shape as `FixBasic.matchClean`). -/
def matchTime (s : Str) : Option (Nat × Nat × Nat) :=
  FixBasic.matchClean (strip s)

/-- `to_seconds` (audit_timestamps.py lines 23-31). -/
def to_seconds (hmmss : Str) : Option Int :=
  (matchTime hmmss).map (fun v => (v.1 : Int) * 3600 + (v.2.1 : Int) * 60 + v.2.2)

/-- `is_h_mm_ss` (audit_timestamps.py lines 33-34). -/
def is_h_mm_ss (s : Str) : Bool := (matchTime s).isSome

/-- `words` (audit_timestamps.py lines 36-37):
`re.findall(r"[A-Za-z0-9_]+", s.lower())`, i.e. maximal word-character
runs (underscores included). -/
def words (s : Str) : List Str := runsP wordCharU (lowerStr s)

/-- `word_count` (audit_timestamps.py lines 39-40). -/
def word_count (s : Str) : Nat := (words s).length

/-- The label check of the audit loop (audit_timestamps.py lines
174-179): weak iff word count outside `[2,5]` or any token is generic. -/
def vague_label (label : Str) : Bool :=
  let lw := word_count (strip label)
  let tokens := (words (strip label)).dedup
  let is_generic := GENERIC_LABELS.any (fun g => tokens.contains g)
  decide (lw < 2) || decide (lw > 5) || is_generic

/-- The description check of the audit loop (audit_timestamps.py lines
180-187): weak iff word count outside `[5,15]` or the overlap ratio is
`≥ 0.7` (exactly `10·inter ≥ 7·|dtoks|`; as in
`FixBasic.is_weak_description` the float comparison is exact on the
reachable denominators). -/
def weak_description (desc label : Str) : Bool :=
  let dw := word_count (strip desc)
  let ltoks := (words (strip label)).dedup
  let dtoks := (words (strip desc)).dedup
  let overlapGe :=
    if dtoks ≠ [] then
      let inter := (dtoks.filter (fun w => ltoks.contains w)).length
      decide (10 * inter ≥ 7 * dtoks.length)
    else false
  decide (dw < 5) || decide (dw > 15) || overlapGe

/-- Per-lesson audit data assembled by the `main` loop
(audit_timestamps.py lines 103-266), with the default configuration
(`max_gap_s = 900`, `min_sep_s = 8`, label 2-5 words, description 5-15
words). -/
structure Report where
  duration_ok : Bool
  bad_format : List Str
  out_of_range : List Str
  non_monotonic : List Str
  too_dense : List (Str × Str)
  coverage_ok : Bool
  vague_labels : List Str
  weak_descriptions : List Str
  overall : Bool
deriving DecidableEq, Repr

/-- The order-check scan (audit_timestamps.py lines 138-145): flag any
entry strictly below the running maximum. -/
def orderScan (ts : List TS) : List Int → Int → Nat → List Str
  | [], _, _ => []
  | s :: rest, prev, i =>
    let flag := if s < prev then [(ts.getD i ⟨[], [], []⟩).time] else []
    flag ++ orderScan ts rest (max prev s) (i + 1)

/-- The range-check scan (audit_timestamps.py lines 132-136). -/
def rangeScan (ts : List TS) (durS : Int) (times : List Int) : List Str :=
  (times.enum.filter (fun p => decide (p.2 < 0) || decide (p.2 > durS))).map
    (fun p => (ts.getD p.1 ⟨[], [], []⟩).time)

/-- The density scan (audit_timestamps.py lines 147-153). -/
def densityScan (ts : List TS) : List Int → Nat → List (Str × Str)
  | a :: b :: rest, i =>
    let flag := if b - a < 8 then
      [((ts.getD i ⟨[], [], []⟩).time, (ts.getD (i + 1) ⟨[], [], []⟩).time)]
      else []
    flag ++ densityScan ts (b :: rest) (i + 1)
  | _, _ => []

/-- The coverage scan (audit_timestamps.py lines 155-166): `true` iff no
consecutive gap exceeds 900 seconds. -/
def coverageScan : List Int → Bool
  | a :: b :: rest => !(decide (b - a > 900)) && coverageScan (b :: rest)
  | _ => true

/-- The body of the per-lesson `main` loop (audit_timestamps.py lines
106-266): all checks plus the overall verdict (line 263).  Note the
verdict ignores `bad_format`. -/
def auditLesson (lesson : Lesson) : Report :=
  let duration_ok := decide (lesson.duration ≠ []) &&
    is_h_mm_ss (strip lesson.duration)
  let duration_s := if duration_ok then to_seconds (strip lesson.duration)
    else none
  let good := lesson.timestamps.filter (fun t => is_h_mm_ss (strip t.time))
  let bad_format := (lesson.timestamps.filter
      (fun t => !(is_h_mm_ss (strip t.time)))).map (fun t => strip t.time)
  let times_s := good.filterMap (fun t => to_seconds (strip t.time))
  let out_of_range := match duration_s with
    | some d => rangeScan lesson.timestamps d times_s
    | none => []
  let non_monotonic := orderScan lesson.timestamps times_s (-1) 0
  let too_dense := densityScan lesson.timestamps times_s 0
  let coverage_ok := match duration_s with
    | some _ =>
      if times_s.length ≥ 2 then coverageScan times_s else true
    | none => true
  let vague_labels := (lesson.timestamps.filter
      (fun t => vague_label t.label)).map (fun t => t.time)
  let weak_descriptions := (lesson.timestamps.filter
      (fun t => weak_description t.description t.label)).map (fun t => t.time)
  let overall := duration_ok && out_of_range.isEmpty &&
    non_monotonic.isEmpty && coverage_ok && too_dense.isEmpty &&
    vague_labels.isEmpty && weak_descriptions.isEmpty
  ⟨duration_ok, bad_format, out_of_range, non_monotonic, too_dense,
   coverage_ok, vague_labels, weak_descriptions, overall⟩

end AuditBasic

/-! ## `audit_timestamps_enhanced.py` -/

namespace AuditEnh

/-- `MAX_GAP_S = 900`, `MIN_SEP_S = 8` (audit_timestamps_enhanced.py
lines 15-16). -/
def MAX_GAP_S : Int := 900

/-- Minimum separation (line 16). -/
def MIN_SEP_S : Int := 8

/-- `GENERIC_LABELS` (audit_timestamps_enhanced.py line 23). -/
def GENERIC_LABELS : List Str :=
  ["overview".toList, "discussion".toList, "recap".toList, "intro".toList,
   "general".toList, "introduction".toList, "review".toList]

/-- `TIME_RE.match` of
`^(?:(\d+):)?([0-5]?\d):([0-5]\d)(?:\s+\(.+\))?$`
(audit_timestamps_enhanced.py line 21) on the stripped string: either
the bare time shape, or the time followed by whitespace and a
parenthesised annotation ending the string (`.+` is modelled as "one or
more characters"; annotation text containing newlines, which Python's
`.` would reject, is not modelled). -/
def matchTimeParen (s : Str) : Option (Nat × Nat × Nat) :=
  let t := strip s
  match FixBasic.matchClean t with
  | some v => some v
  | none =>
    let core := t.takeWhile (fun c => !isSpaceCh c)
    let rest := t.dropWhile (fun c => !isSpaceCh c)
    let inner := rest.dropWhile isSpaceCh
    if rest ≠ [] ∧ inner.headI = '(' ∧ inner ≠ [] ∧
        inner.getLast? = some ')' ∧ inner.length ≥ 3 then
      FixBasic.matchClean core
    else none

/-- `to_seconds` (audit_timestamps_enhanced.py lines 25-33). -/
def to_seconds (time_str : Str) : Option Int :=
  (matchTimeParen time_str).map
    (fun v => (v.1 : Int) * 3600 + (v.2.1 : Int) * 60 + v.2.2)

/-- `is_clean_duration` (lines 35-37): strict `DURATION_RE`, no
trailing annotation. -/
def is_clean_duration (duration_str : Str) : Bool :=
  (FixBasic.matchClean (strip duration_str)).isSome

/-- `extract_words` (lines 39-41), identical to the one in
fix_timestamps.py. -/
def extract_words (text : Str) : List Str :=
  (runsP wordCharU (lowerStr text)).filter (fun w => !(w.contains '_'))

/-- `word_count` (lines 43-45). -/
def word_count (text : Str) : Nat := (extract_words text).length

/-- `check_label_quality` (lines 47-58): `true` means acceptable.  A
generic word only disqualifies a label when it is the label's single
distinct word. -/
def check_label_quality (label : Str) : Bool :=
  if label = [] then false
  else
    let wc := word_count label
    if wc < 2 || wc > 5 then false
    else
      let words := (extract_words label).dedup
      if words.length = 1 && words.all (fun w => GENERIC_LABELS.contains w) then
        false
      else true

/-- `check_description_quality` (lines 60-74): `true` means acceptable;
overlap strictly above 0.7 (`10·inter > 7·|desc_words|`, exact on the
reachable denominators) rejects. -/
def check_description_quality (desc label : Str) : Bool :=
  if desc = [] then false
  else
    let wc := word_count desc
    if wc < 5 || wc > 15 then false
    else
      let label_words := (extract_words label).dedup
      let desc_words := (extract_words desc).dedup
      if label_words ≠ [] ∧ desc_words ≠ [] then
        let inter := (desc_words.filter (fun w => label_words.contains w)).length
        if 10 * inter > 7 * desc_words.length then false else true
      else true

/-- The issue lists built by `audit_lesson`'s main loop plus the
acceptance verdict (audit_timestamps_enhanced.py lines 76-191). -/
structure Report where
  duration_ok : Bool
  format : List Str
  out_of_range : List Str
  non_monotonic : List Str
  density : List (Str × Str)
  coverage_gaps : List (Str × Str × Int)
  vague_labels : List Str
  weak_descriptions : List Str
  timestamps_pass : Bool
  summaries_pass : Bool
  overall : Bool
deriving DecidableEq, Repr

/-- The consecutive order check (lines 127-130). -/
def orderViol : List (Int × Str) → List Str
  | a :: b :: rest =>
    (if b.1 < a.1 then [b.2] else []) ++ orderViol (b :: rest)
  | _ => []

/-- The consecutive density check (lines 132-136). -/
def densityViol : List (Int × Str) → List (Str × Str)
  | a :: b :: rest =>
    (if b.1 - a.1 < MIN_SEP_S then [(a.2, b.2)] else []) ++
      densityViol (b :: rest)
  | _ => []

/-- The consecutive coverage check (lines 138-147). -/
def coverageViol : List (Int × Str) → List (Str × Str × Int)
  | a :: b :: rest =>
    (if b.1 - a.1 > MAX_GAP_S then [(a.2, b.2, b.1 - a.1)] else []) ++
      coverageViol (b :: rest)
  | _ => []

/-- The `(time_s, ts)` pairs collected by `audit_lesson`'s loop for the
entries whose time parses (audit_timestamps_enhanced.py lines 101-111). -/
def parsedPairs (lesson : Lesson) : List (Int × TS) :=
  lesson.timestamps.filterMap
    (fun t => (to_seconds t.time).map (fun s => (s, t)))

/-- The `times_s` view used by the order/density/coverage scans. -/
def timesS (lesson : Lesson) : List (Int × Str) :=
  (parsedPairs lesson).map (fun p => (p.1, p.2.time))

/-- `duration_s` (line 85): parsed only when the duration is clean. -/
def durationS (lesson : Lesson) : Option Int :=
  if is_clean_duration lesson.duration then to_seconds lesson.duration
  else none

/-- The `format` issue list (lines 107-109). -/
def formatList (lesson : Lesson) : List Str :=
  (lesson.timestamps.filter (fun t => (to_seconds t.time).isNone)).map
    (fun t => t.time)

/-- The `out_of_range` issue list (lines 113-115); the Python guard
`if duration_s and ...` skips the check when `duration_s` is `None` or
`0`. -/
def rangeList (lesson : Lesson) : List Str :=
  match durationS lesson with
  | some d =>
    if d ≠ 0 then
      ((parsedPairs lesson).filter
          (fun p => decide (p.1 < 0) || decide (p.1 > d))).map
        (fun p => p.2.time)
    else []
  | none => []

/-- The `coverage_gaps` issue list (lines 139-147). -/
def coverageList (lesson : Lesson) : List (Str × Str × Int) :=
  if (timesS lesson).length > 1 then coverageViol (timesS lesson) else []

/-- The `vague_labels` list (lines 121-122; only parsed entries reach
the quality checks, the `continue` skips the rest). -/
def vagueList (lesson : Lesson) : List Str :=
  ((parsedPairs lesson).filter
      (fun p => !(check_label_quality p.2.label))).map (fun p => p.2.time)

/-- The `weak_descriptions` list (lines 124-125). -/
def weakList (lesson : Lesson) : List Str :=
  ((parsedPairs lesson).filter
      (fun p => !(check_description_quality p.2.description p.2.label))).map
    (fun p => p.2.time)

/-- `timestamps_pass` (lines 150-157). -/
def timestampsPass (lesson : Lesson) : Bool :=
  is_clean_duration lesson.duration && (formatList lesson).isEmpty &&
  (rangeList lesson).isEmpty && (orderViol (timesS lesson)).isEmpty &&
  (densityViol (timesS lesson)).isEmpty && (coverageList lesson).isEmpty

/-- `summaries_pass` (lines 159-162). -/
def summariesPass (lesson : Lesson) : Bool :=
  (vagueList lesson).isEmpty && (weakList lesson).isEmpty

/-- `audit_lesson` (audit_timestamps_enhanced.py lines 76-191).  Entries
whose time fails to parse are listed under `format` and skipped by the
`continue`, so they take part in no other check (including the quality
checks). -/
def audit_lesson (lesson : Lesson) : Report :=
  ⟨is_clean_duration lesson.duration, formatList lesson, rangeList lesson,
   orderViol (timesS lesson), densityViol (timesS lesson),
   coverageList lesson, vagueList lesson, weakList lesson,
   timestampsPass lesson, summariesPass lesson,
   timestampsPass lesson && summariesPass lesson⟩

end AuditEnh

/-! ## Canonical `H:MM:SS` strings -/

/-- The claim's notion of a canonical `H:MM:SS` string: it matches the
strict time regex with minute and second fields below 60, and
re-rendering its components reproduces it exactly. -/
def isCanonicalHMMSS (s : Str) : Bool :=
  match FixBasic.matchClean s with
  | some v =>
    decide (v.2.1 < 60) && decide (v.2.2 < 60) &&
    decide (renderHMS (v.1 : Int) (v.2.1 : Int) (v.2.2 : Int) = s)
  | none => false


/-! ## Concrete inputs used by counterexamples and witnesses -/

/-- A lesson whose only flaw is the unparseable time string `"abc"`. -/
def c8Lesson : Lesson :=
  ⟨"l8".toList, "Zq".toList, "0:08:00".toList, [],
   [⟨"0:01:40".toList, "Vector Storage Setup".toList,
     "Configure the vector database schema for fast retrieval".toList⟩,
    ⟨"abc".toList, "Query Planner Internals".toList,
     "Explore the query planner cost model in depth".toList⟩]⟩

/-- A lesson with the `M:SS` time `"1:75"` whose seconds field exceeds
59; everything else is clean. -/
def c9Lesson : Lesson :=
  ⟨"l9".toList, "Zq".toList, "1:00:00".toList, [],
   [⟨"1:75".toList, "Vector Storage Setup".toList,
     "Configure the vector database schema for fast retrieval".toList⟩]⟩

/-- A course document containing only `c9Lesson`. -/
def c9Course : Course := ⟨[⟨"w1".toList, [c9Lesson]⟩]⟩

/-- A lesson with a single timestamp exactly at the lesson duration. -/
def c4Lesson : Lesson :=
  ⟨"l4".toList, "Zq".toList, "0:10:00".toList, [],
   [⟨"0:10:00".toList, "Vector Storage Setup".toList,
     "Configure the vector database schema for fast retrieval".toList⟩]⟩

/-- A lesson whose two timestamps are far apart but out of order, with
strong labels and descriptions and a clean duration. -/
def c5Lesson : Lesson :=
  ⟨"l5".toList, "Zq".toList, "1:00:00".toList, [],
   [⟨"0:00:20".toList, "Vector Storage Setup".toList,
     "Configure the vector database schema for fast retrieval".toList⟩,
    ⟨"0:00:05".toList, "Query Planner Internals".toList,
     "Explore the query planner cost model in depth".toList⟩]⟩

/-- A lesson with two dense timestamps (5s apart) where the later entry
has the longer description. -/
def c6Lesson : Lesson :=
  ⟨"l6".toList, "Zq".toList, "1:00:00".toList, [],
   [⟨"0:00:05".toList, "Vector Storage Setup".toList,
     "Configure the vector storage today".toList⟩,
    ⟨"0:00:10".toList, "Query Planner Internals".toList,
     "Explore the query planner cost model".toList⟩]⟩

/-- A lesson with a malformed time string `"junk"` but a clean duration
and a strong label/description pair. -/
def c2Lesson : Lesson :=
  ⟨"l2".toList, "Zq".toList, "1:00:00".toList, [],
   [⟨"junk".toList, "Vector Database Setup".toList,
     "Configure the storage schema for efficient retrieval today".toList⟩]⟩

/-- The parsed seconds values of a lesson's timestamps, in list order
(used to state the enhanced audit's order/density/coverage conditions). -/
def AuditEnh.parsedTimes (lesson : Lesson) : List Int :=
  lesson.timestamps.filterMap (fun t => AuditEnh.to_seconds t.time)


/-- A lesson whose single timestamp lies beyond the lesson duration. -/
def c4bLesson : Lesson :=
  ⟨"l4b".toList, "Zq".toList, "0:10:00".toList, [],
   [⟨"0:20:00".toList, "Vector Storage Setup".toList,
     "Configure the vector database schema for fast retrieval".toList⟩]⟩


/-- The per-entry text conditions under which `rewriteAll` leaves an
entry unchanged (label word count in 2-5, no generic substring, not the
review sentinel; description word count in 5-15, not equal to the label,
no short "overview" text). -/
def FixEnh.entryTextOK (t : TS) : Bool :=
  !(decide ((pySplitWS t.label).length < 2) ||
    decide ((pySplitWS t.label).length > 5) ||
    FixEnh.GENERIC_TERMS.any (fun g => containsSeq g (lowerStr t.label)) ||
    decide (t.label = "TO_REVIEW".toList)) &&
  !(decide ((pySplitWS t.description).length < 5) ||
    decide ((pySplitWS t.description).length > 15) ||
    decide (lowerStr t.description = lowerStr t.label) ||
    (containsSeq "overview".toList (lowerStr t.description) &&
      decide ((pySplitWS t.description).length < 8)))

/-- Executable check that consecutive seconds values are at least
`MIN_SEPARATION_S` apart and each gap is within the coverage bound. -/
def FixEnh.chainOKB (D : Int) : List Int → Bool
  | a :: b :: rest =>
    decide (a + FixEnh.MIN_SEPARATION_S ≤ b) && decide (4 * (b - a) ≤ D) &&
      FixEnh.chainOKB D (b :: rest)
  | _ => true

/-- A lesson on which every step of the enhanced repair pipeline is the
identity: duration and times normalize to themselves, all seconds values
lie in `[0, D)`, consecutive values are at least `MIN_SEPARATION_S`
apart and within the coverage bound, all entry texts pass the rewrite
checks, and the labels are pairwise distinct. -/
def FixEnh.cleanLesson (lesson : Lesson) : Bool :=
  match FixEnh.time_to_seconds lesson.duration,
      FixEnh.decorate lesson.timestamps with
  | some D, some keyed =>
    decide (FixEnh.normalize_time lesson.duration = some lesson.duration) &&
    lesson.timestamps.all
      (fun t => decide (FixEnh.normalize_time t.time = some t.time)) &&
    (keyed.map Prod.fst).all (fun k => decide (0 ≤ k ∧ k < D)) &&
    FixEnh.chainOKB D (keyed.map Prod.fst) &&
    lesson.timestamps.all FixEnh.entryTextOK &&
    decide ((lesson.timestamps.map (fun t => t.label)).Nodup)
  | _, _ => false

/-- A clean lesson: canonical duration and times, sorted, in range,
well separated, within the coverage bound, with distinct strong
labels and strong descriptions. -/
def c9CleanLesson : Lesson :=
  ⟨"l9c".toList, "Zq".toList, "1:00:00".toList, [],
   [⟨"0:00:05".toList, "Vector Storage Setup".toList,
     "Configure the vector database schema for fast retrieval".toList⟩,
    ⟨"0:10:00".toList, "Query Planner Internals".toList,
     "Explore the query planner cost model in depth".toList⟩]⟩

/-! ## Proofs -/

section StrLemmas

theorem dropWhile_eq_self_of {p : Char → Bool} {l : Str}
    (h : ∀ c ∈ l, p c = false) : l.dropWhile p = l := by
  cases l with
  | nil => rfl
  | cons c cs => simp [List.dropWhile_cons, h c (by simp)]

theorem strip_eq_self {l : Str} (h : ∀ c ∈ l, isSpaceCh c = false) :
    strip l = l := by
  unfold strip
  rw [dropWhile_eq_self_of h, dropWhile_eq_self_of (by simpa using h),
    List.reverse_reverse]

theorem splitOnChar_no_sep {sep : Char} {l : Str} (h : sep ∉ l) :
    splitOnChar sep l = [l] := by
  induction l with
  | nil => rfl
  | cons c cs ih =>
    have hc : ¬ c = sep := fun e => h (e ▸ List.mem_cons_self c cs)
    have hcs : sep ∉ cs := fun m => h (List.mem_cons_of_mem c m)
    simp [splitOnChar, hc, ih hcs]

theorem splitOnChar_cons (sep c : Char) (l : Str) :
    splitOnChar sep (c :: l) =
      if c = sep then [] :: splitOnChar sep l
      else
        match splitOnChar sep l with
        | h :: t => (c :: h) :: t
        | [] => [[c]] := rfl

theorem splitOnChar_append_sep {sep : Char} {a b : Str} (h : sep ∉ a) :
    splitOnChar sep (a ++ sep :: b) = a :: splitOnChar sep b := by
  induction a with
  | nil => simp [splitOnChar]
  | cons c cs ih =>
    have hc : ¬ c = sep := fun e => h (e ▸ List.mem_cons_self c cs)
    have hcs : sep ∉ cs := fun m => h (List.mem_cons_of_mem c m)
    rw [List.cons_append, splitOnChar_cons, if_neg hc, ih hcs]

theorem digitChar_props {d : Nat} (h : d < 10) :
    isDigitCh (digitChar d) = true ∧ isSpaceCh (digitChar d) = false ∧
    digitChar d ≠ ':' ∧ digitChar d ≠ '-' ∧ digitChar d ≠ '+' ∧
    digitChar d ≠ '(' ∧ digitChar d ≠ ')' ∧ digitChar d ≠ '_' ∧
    digitVal (digitChar d) = d := by
  interval_cases d <;> exact ⟨rfl, rfl, by decide, by decide, by decide,
    by decide, by decide, by decide, by decide⟩

theorem natToCharsAux_fuel {f1 f2 n : Nat} (acc : Str) (h1 : n < f1)
    (h2 : n < f2) : natToCharsAux f1 n acc = natToCharsAux f2 n acc := by
  induction n using Nat.strong_induction_on generalizing f1 f2 acc with
  | _ n ih =>
    cases f1 with
    | zero => omega
    | succ f1 =>
      cases f2 with
      | zero => omega
      | succ f2 =>
        simp only [natToCharsAux]
        by_cases h : n < 10
        · simp [h]
        · simp only [h, if_false]
          have hlt : n / 10 < n := Nat.div_lt_self (by omega) (by omega)
          exact ih _ hlt _ (by omega) (by omega)

theorem natToCharsAux_append {fuel n : Nat} (acc : Str) (hf : n < fuel) :
    natToCharsAux fuel n acc = natToCharsAux fuel n [] ++ acc := by
  induction n using Nat.strong_induction_on generalizing fuel acc with
  | _ n ih =>
    cases fuel with
    | zero => omega
    | succ fuel =>
      simp only [natToCharsAux]
      by_cases h : n < 10
      · simp [h]
      · simp only [h, if_false]
        have hlt : n / 10 < n := Nat.div_lt_self (by omega) (by omega)
        rw [ih _ hlt (digitChar n :: acc) (by omega),
          ih _ hlt [digitChar n] (by omega)]
        simp

theorem natToChars_eq (n : Nat) :
    natToChars n =
      if n < 10 then [digitChar n]
      else natToChars (n / 10) ++ [digitChar n] := by
  by_cases h : n < 10
  · simp [natToChars, natToCharsAux, h]
  · rw [if_neg h]
    show natToCharsAux (n + 1) n [] = _
    simp only [natToCharsAux, h, if_false]
    have hlt : n / 10 < n := Nat.div_lt_self (by omega) (by omega)
    rw [natToCharsAux_append [digitChar n] (by omega),
      natToCharsAux_fuel [] (by omega) (Nat.lt_succ_self (n / 10))]
    rfl

theorem natToChars_forall (n : Nat) :
    ∀ c ∈ natToChars n, ∃ d, d < 10 ∧ c = digitChar d := by
  induction n using Nat.strong_induction_on with
  | _ n ih =>
    rw [natToChars_eq]
    by_cases h : n < 10
    · simp only [h, if_true, List.mem_singleton]
      rintro c rfl
      exact ⟨n, h, rfl⟩
    · simp only [h, if_false, List.mem_append, List.mem_singleton]
      rintro c (hc | rfl)
      · exact ih _ (Nat.div_lt_self (by omega) (by omega)) c hc
      · exact ⟨n % 10, Nat.mod_lt _ (by omega), by simp [digitChar]⟩

theorem natToChars_ne_nil (n : Nat) : natToChars n ≠ [] := by
  rw [natToChars_eq]
  by_cases h : n < 10 <;> simp [h]

theorem digitsVal_append_singleton (l : Str) (c : Char) :
    digitsVal (l ++ [c]) = 10 * digitsVal l + digitVal c := by
  simp [digitsVal, List.foldl_append, Nat.mul_comm]

theorem digitsVal_natToChars (n : Nat) : digitsVal (natToChars n) = n := by
  induction n using Nat.strong_induction_on with
  | _ n ih =>
    rw [natToChars_eq]
    by_cases h : n < 10
    · simp only [h, if_true]
      have := (digitChar_props h).2.2.2.2.2.2.2.2
      simp [digitsVal, this]
    · simp only [h, if_false]
      rw [digitsVal_append_singleton,
        ih _ (Nat.div_lt_self (by omega) (by omega))]
      have h10 : n % 10 < 10 := Nat.mod_lt _ (by omega)
      have := (digitChar_props h10).2.2.2.2.2.2.2.2
      have hd : digitChar n = digitChar (n % 10) := by
        have hmm : n % 10 % 10 = n % 10 := by omega
        simp [digitChar, hmm]
      rw [hd, this]
      omega

theorem pyDigits?_natToChars (n : Nat) : pyDigits? (natToChars n) = some n := by
  unfold pyDigits?
  rw [if_pos, digitsVal_natToChars]
  refine ⟨natToChars_ne_nil n, ?_⟩
  rw [List.all_eq_true]
  intro c hc
  obtain ⟨d, hd, rfl⟩ := natToChars_forall n c hc
  exact (digitChar_props hd).1

theorem digitsVal_cons_zero (l : Str) : digitsVal ('0' :: l) = digitsVal l := by
  simp [digitsVal, digitVal]

theorem pyInt?_digit_head {l : Str} (hne : l ≠ [])
    (hall : ∀ c ∈ l, ∃ d, d < 10 ∧ c = digitChar d) :
    pyInt? l = (pyDigits? l).map (fun n => (n : Int)) := by
  have hs : strip l = l :=
    strip_eq_self (fun c hc => by
      obtain ⟨d, hd, rfl⟩ := hall c hc
      exact (digitChar_props hd).2.1)
  cases l with
  | nil => exact absurd rfl hne
  | cons c cs =>
    obtain ⟨d, hd, rfl⟩ := hall c (List.mem_cons_self c cs)
    simp only [pyInt?, hs]
    rw [if_neg (by simp), List.headI,
      if_neg (digitChar_props hd).2.2.2.1, if_neg (digitChar_props hd).2.2.2.2.1]

theorem pyInt?_natToChars (n : Nat) : pyInt? (natToChars n) = some (n : Int) := by
  rw [pyInt?_digit_head (natToChars_ne_nil n) (natToChars_forall n),
    pyDigits?_natToChars]
  rfl

theorem pyInt?_intToChars (i : Int) : pyInt? (intToChars i) = some i := by
  unfold intToChars
  by_cases h : i < 0
  · rw [if_pos h]
    have hall := natToChars_forall i.natAbs
    have hs : strip ('-' :: natToChars i.natAbs) = '-' :: natToChars i.natAbs :=
      strip_eq_self (by
        intro c hc
        rcases List.mem_cons.mp hc with rfl | hc
        · decide
        · obtain ⟨d, hd, rfl⟩ := hall c hc
          exact (digitChar_props hd).2.1)
    simp only [pyInt?, hs]
    rw [if_neg (by simp), List.headI, if_pos rfl]
    simp only [List.tail_cons, pyDigits?_natToChars, Option.map_some]
    have habs : ((i.natAbs : Int)) = -i :=
      Int.ofNat_natAbs_of_nonpos (by omega)
    simp [habs]
  · rw [if_neg h, pyInt?_natToChars]
    have : ((i.toNat : Int)) = i := Int.toNat_of_nonneg (by omega)
    rw [this]

theorem pyInt?_pad02 (i : Int) : pyInt? (pad02 i) = some i := by
  unfold pad02
  by_cases h : 0 ≤ i ∧ i ≤ 9
  · rw [if_pos h]
    have hall := natToChars_forall i.toNat
    have hall0 : ∀ c ∈ '0' :: natToChars i.toNat, ∃ d, d < 10 ∧ c = digitChar d := by
      intro c hc
      rcases List.mem_cons.mp hc with rfl | hc
      · exact ⟨0, by omega, by decide⟩
      · exact hall c hc
    rw [pyInt?_digit_head (by simp) hall0]
    have hdig : pyDigits? ('0' :: natToChars i.toNat) = some i.toNat := by
      unfold pyDigits?
      rw [if_pos, digitsVal_cons_zero, digitsVal_natToChars]
      refine ⟨by simp, ?_⟩
      rw [List.all_eq_true]
      intro c hc
      obtain ⟨d, hd, rfl⟩ := hall0 c hc
      exact (digitChar_props hd).1
    rw [hdig]
    simp [Int.toNat_of_nonneg h.1]
  · rw [if_neg h]
    exact pyInt?_intToChars i

theorem intToChars_forall (i : Int) :
    ∀ c ∈ intToChars i, c = '-' ∨ ∃ d, d < 10 ∧ c = digitChar d := by
  unfold intToChars
  by_cases h : i < 0
  · rw [if_pos h]
    intro c hc
    rcases List.mem_cons.mp hc with rfl | hc
    · exact Or.inl rfl
    · exact Or.inr (natToChars_forall _ c hc)
  · rw [if_neg h]
    intro c hc
    exact Or.inr (natToChars_forall _ c hc)

theorem pad02_forall (i : Int) :
    ∀ c ∈ pad02 i, c = '-' ∨ ∃ d, d < 10 ∧ c = digitChar d := by
  unfold pad02
  by_cases h : 0 ≤ i ∧ i ≤ 9
  · rw [if_pos h]
    intro c hc
    rcases List.mem_cons.mp hc with rfl | hc
    · exact Or.inr ⟨0, by omega, by decide⟩
    · exact Or.inr (natToChars_forall _ c hc)
  · rw [if_neg h]
    exact intToChars_forall i

theorem renderHMS_forall (h m s : Int) :
    ∀ c ∈ renderHMS h m s,
      c = ':' ∨ c = '-' ∨ ∃ d, d < 10 ∧ c = digitChar d := by
  unfold renderHMS
  intro c hc
  simp only [List.mem_append, List.mem_cons] at hc
  rcases hc with hc | rfl | hc | rfl | hc
  · exact Or.inr (intToChars_forall _ c hc)
  · exact Or.inl rfl
  · exact Or.inr (pad02_forall _ c hc)
  · exact Or.inl rfl
  · exact Or.inr (pad02_forall _ c hc)

theorem splitColon_renderHMS (h m s : Int) :
    splitOnChar ':' (renderHMS h m s) = [intToChars h, pad02 m, pad02 s] := by
  have h1 : (':' : Char) ∉ intToChars h := by
    intro hmem
    rcases intToChars_forall h ':' hmem with e | ⟨d, hd, e⟩
    · exact absurd e (by decide)
    · exact absurd e.symm (digitChar_props hd).2.2.1
  have h2 : (':' : Char) ∉ pad02 m := by
    intro hmem
    rcases pad02_forall m ':' hmem with e | ⟨d, hd, e⟩
    · exact absurd e (by decide)
    · exact absurd e.symm (digitChar_props hd).2.2.1
  have h3 : (':' : Char) ∉ pad02 s := by
    intro hmem
    rcases pad02_forall s ':' hmem with e | ⟨d, hd, e⟩
    · exact absurd e (by decide)
    · exact absurd e.symm (digitChar_props hd).2.2.1
  unfold renderHMS
  rw [splitOnChar_append_sep h1, splitOnChar_append_sep h2, splitOnChar_no_sep h3]

theorem renderHMS_no_space (h m s : Int) :
    ∀ c ∈ renderHMS h m s, isSpaceCh c = false := by
  intro c hc
  rcases renderHMS_forall h m s c hc with rfl | rfl | ⟨d, hd, rfl⟩
  · decide
  · decide
  · exact (digitChar_props hd).2.1

theorem renderHMS_no_paren (h m s : Int) :
    ∀ c ∈ renderHMS h m s, c ≠ '(' := by
  intro c hc
  rcases renderHMS_forall h m s c hc with rfl | rfl | ⟨d, hd, rfl⟩
  · decide
  · decide
  · exact (digitChar_props hd).2.2.2.2.2.1

theorem matchParen_none {l : Str} (h : '(' ∉ l) : matchParen l = none := by
  unfold matchParen
  cases hdw : l.dropWhile isSpaceCh with
  | nil => simp [hdw]
  | cons c t =>
    have hcl : c ∈ l := by
      have hsub : List.Sublist (l.dropWhile isSpaceCh) l :=
        List.dropWhile_sublist _
      exact hsub.mem (hdw ▸ List.mem_cons_self c t)
    have hcp : c ≠ '(' := fun e => h (e ▸ hcl)
    simp [List.headI, hcp]

theorem cleanParensAux_no_paren (fuel : Nat) {l : Str} (h : '(' ∉ l) :
    cleanParensAux fuel l = l := by
  induction fuel generalizing l with
  | zero => rfl
  | succ fuel ih =>
    cases l with
    | nil => rfl
    | cons c cs =>
      simp only [cleanParensAux, matchParen_none h,
        ih (fun m => h (List.mem_cons_of_mem c m))]

theorem cleanParens_no_paren {l : Str} (h : '(' ∉ l) : cleanParens l = l :=
  cleanParensAux_no_paren _ h

end StrLemmas

/-! ## Render/parse algebra -/

section RenderLemmas

theorem renderHMS_clean (h m s : Int) :
    cleanParens (strip (renderHMS h m s)) = renderHMS h m s := by
  rw [strip_eq_self (renderHMS_no_space h m s)]
  exact cleanParens_no_paren (fun hc => renderHMS_no_paren h m s '(' hc rfl)

theorem FixEnh.parse3val_render (h m s : Int) :
    FixEnh.parse3val (renderHMS h m s) = some (h * 3600 + m * 60 + s) := by
  unfold FixEnh.parse3val
  rw [splitColon_renderHMS]
  simp [pyInt?_intToChars, pyInt?_pad02]

theorem FixEnh.normalize_time_render (h m s : Int) :
    FixEnh.normalize_time (renderHMS h m s) =
      some (renderHMS (h + (m + s / 60) / 60)
        ((m + s / 60) % 60) (s % 60)) := by
  simp [FixEnh.normalize_time, renderHMS_clean, splitColon_renderHMS,
    pyInt?_intToChars, pyInt?_pad02]

theorem FixEnh.time_to_seconds_render (h m s : Int) :
    FixEnh.time_to_seconds (renderHMS h m s) = some (h * 3600 + m * 60 + s) := by
  unfold FixEnh.time_to_seconds
  rw [FixEnh.normalize_time_render]
  simp only [Option.bind_eq_bind, Option.some_bind, FixEnh.parse3val_render,
    Option.some.injEq]
  generalize hM : m + s / 60 = M
  omega

theorem FixEnh.time_to_seconds_seconds_to_time (n : Int) :
    FixEnh.time_to_seconds (FixEnh.seconds_to_time n) = some n := by
  unfold FixEnh.seconds_to_time
  rw [FixEnh.time_to_seconds_render]
  congr 1
  generalize hP : n % 3600 = P
  have h1 : n / 3600 * 3600 + P = n := by omega
  have h2 : P / 60 * 60 + P % 60 = P := by omega
  have h3 : n % 60 = P % 60 := by omega
  omega

theorem FixBasic.parse3_render (h m s : Int) :
    FixBasic.parse3 (renderHMS h m s) = some (h * 3600 + m * 60 + s) := by
  unfold FixBasic.parse3
  rw [splitColon_renderHMS]
  simp [pyInt?_intToChars, pyInt?_pad02]

theorem takeBefore_eq_self {l : Str} (h : '(' ∉ l) : takeBefore '(' l = l := by
  induction l with
  | nil => rfl
  | cons c cs ih =>
    have hc : c ≠ '(' := fun e => h (e ▸ List.mem_cons_self c cs)
    simp only [takeBefore, List.takeWhile_cons]
    rw [if_pos (by simp [hc])]
    have := ih (fun m => h (List.mem_cons_of_mem c m))
    simp only [takeBefore] at this
    rw [this]

theorem basicClean_render (h m s : Int) :
    strip (takeBefore '(' (strip (renderHMS h m s))) = renderHMS h m s := by
  rw [strip_eq_self (renderHMS_no_space h m s),
    takeBefore_eq_self (fun hc => renderHMS_no_paren h m s '(' hc rfl),
    strip_eq_self (renderHMS_no_space h m s)]

theorem digitsVal_intToChars_nat (n : Nat) :
    digitsVal (intToChars (n : Int)) = n := by
  unfold intToChars
  rw [if_neg (by omega)]
  simp [digitsVal_natToChars]

theorem digitsVal_pad02_nat (n : Nat) :
    digitsVal (pad02 (n : Int)) = n := by
  unfold pad02
  by_cases h : 0 ≤ (n : Int) ∧ (n : Int) ≤ 9
  · rw [if_pos h, digitsVal_cons_zero]
    simp [digitsVal_natToChars]
  · rw [if_neg h]
    exact digitsVal_intToChars_nat n

theorem FixBasic.matchClean_render_eq {h m s : Nat} {v : Nat × Nat × Nat}
    (hv : FixBasic.matchClean (renderHMS (h : Int) (m : Int) (s : Int)) = some v) :
    v = (h, m, s) := by
  unfold FixBasic.matchClean at hv
  rw [splitColon_renderHMS] at hv
  simp only at hv
  split at hv
  · cases hv
    rw [digitsVal_intToChars_nat, digitsVal_pad02_nat, digitsVal_pad02_nat]
  · cases hv

/-- `time_to_seconds` agrees with the bare three-part value on any
rendered string (the re-normalization inside it preserves the value). -/
theorem FixEnh.t2s_render_eq (h m s : Int) :
    FixEnh.time_to_seconds (renderHMS h m s) =
      FixEnh.parse3val (renderHMS h m s) := by
  rw [FixEnh.time_to_seconds_render, FixEnh.parse3val_render]

/-- The basic fixer's `normalize_time` leaves any rendered string's
`parse3` value unchanged when re-applied. -/
theorem FixBasic.normalize_render_value (h m s : Nat) (hm : m < 60) :
    FixBasic.to_seconds (renderHMS (h : Int) (m : Int) (s : Int)) =
      FixBasic.parse3 (renderHMS (h : Int) (m : Int) (s : Int)) := by
  unfold FixBasic.to_seconds
  cases hmc : FixBasic.matchClean (renderHMS (h : Int) (m : Int) (s : Int)) with
  | some v =>
    obtain rfl := FixBasic.matchClean_render_eq hmc
    simp only [FixBasic.normalize_time, basicClean_render, hmc]
    rw [if_neg (by omega)]
  | none =>
    simp only [FixBasic.normalize_time, basicClean_render, hmc,
      splitColon_renderHMS]

end RenderLemmas

theorem isCanonicalHMMSS_elim {s : Str} (h : isCanonicalHMMSS s = true) :
    ∃ hh mm ss : Nat, mm < 60 ∧ ss < 60 ∧
      s = renderHMS (hh : Int) (mm : Int) (ss : Int) ∧
      FixBasic.matchClean s = some (hh, mm, ss) := by
  unfold isCanonicalHMMSS at h
  cases hmc : FixBasic.matchClean s with
  | none => rw [hmc] at h; cases h
  | some v =>
    rw [hmc] at h
    simp only [Bool.and_eq_true, decide_eq_true_eq] at h
    exact ⟨v.1, v.2.1, v.2.2, h.1.1, h.1.2, h.2.symm, rfl⟩

/-- Enhanced `normalize_time` is the identity on canonical strings. -/
theorem FixEnh.normalize_time_canonical {s : Str}
    (h : isCanonicalHMMSS s = true) : FixEnh.normalize_time s = some s := by
  obtain ⟨hh, mm, ss, hm, hs, rfl, _⟩ := isCanonicalHMMSS_elim h
  rw [FixEnh.normalize_time_render]
  have h1 : ((ss : Int)) / 60 = 0 := by omega
  have h2 : ((ss : Int)) % 60 = (ss : Int) := by omega
  have h3 : ((mm : Int)) / 60 = 0 := by omega
  have h4 : ((mm : Int)) % 60 = (mm : Int) := by omega
  simp [h1, h2, h3, h4]

/-- Basic `normalize_time` returns the input with a `false` change flag
on canonical strings. -/
theorem FixBasic.normalize_time_fixpoint {s : Str}
    (h : isCanonicalHMMSS s = true) : FixBasic.normalize_time s = (s, false) := by
  obtain ⟨hh, mm, ss, hm, hs, hrender, hmc⟩ := isCanonicalHMMSS_elim h
  rw [hrender] at hmc ⊢
  simp only [FixBasic.normalize_time, basicClean_render, hmc]
  rw [if_neg (by omega)]
  simp

/-! ## Membership propagation and sign facts -/

section MemLemmas

theorem mem_strip {c : Char} {l : Str} (h : c ∈ strip l) : c ∈ l := by
  unfold strip at h
  rw [List.mem_reverse] at h
  have h1 := (List.dropWhile_sublist _).mem h
  rw [List.mem_reverse] at h1
  exact (List.dropWhile_sublist _).mem h1

theorem mem_takeBefore {c sep : Char} {l : Str} (h : c ∈ takeBefore sep l) :
    c ∈ l := (List.takeWhile_sublist _).mem h

theorem mem_splitOnChar {sep c : Char} {l : Str} {p : Str}
    (hp : p ∈ splitOnChar sep l) (hc : c ∈ p) : c ∈ l := by
  induction l generalizing p with
  | nil =>
    simp only [splitOnChar, List.mem_singleton] at hp
    subst hp
    cases hc
  | cons a as ih =>
    rw [splitOnChar_cons] at hp
    by_cases ha : a = sep
    · rw [if_pos ha] at hp
      rcases List.mem_cons.mp hp with rfl | hp
      · cases hc
      · exact List.mem_cons_of_mem a (ih hp hc)
    · rw [if_neg ha] at hp
      cases hsp : splitOnChar sep as with
      | nil =>
        rw [hsp] at hp
        simp only [List.mem_singleton] at hp
        subst hp
        rcases List.mem_cons.mp hc with rfl | hc
        · exact List.mem_cons_self _ _
        · cases hc
      | cons w ws =>
        rw [hsp] at hp
        rcases List.mem_cons.mp hp with rfl | hp
        · rcases List.mem_cons.mp hc with rfl | hc
          · exact List.mem_cons_self _ _
          · exact List.mem_cons_of_mem a (ih (hsp ▸ List.mem_cons_self w ws) hc)
        · exact List.mem_cons_of_mem a (ih (hsp ▸ List.mem_cons_of_mem w hp) hc)

theorem mem_matchParen {c : Char} {l r : Str} (h : matchParen l = some r)
    (hc : c ∈ r) : c ∈ l := by
  unfold matchParen at h
  split at h
  · split at h
    · cases h
    · split at h
      · cases h
        have h1 : c ∈ (l.dropWhile isSpaceCh).tail.dropWhile (· ≠ ')') :=
          (List.tail_sublist _).mem hc
        have h2 : c ∈ (l.dropWhile isSpaceCh).tail :=
          (List.dropWhile_sublist _).mem h1
        have h3 : c ∈ l.dropWhile isSpaceCh := (List.tail_sublist _).mem h2
        exact (List.dropWhile_sublist _).mem h3
      · cases h
  · cases h

theorem mem_cleanParensAux {c : Char} {l : Str} (fuel : Nat)
    (h : c ∈ cleanParensAux fuel l) : c ∈ l := by
  induction fuel generalizing l with
  | zero => exact h
  | succ fuel ih =>
    cases l with
    | nil => cases h
    | cons a as =>
      unfold cleanParensAux at h
      cases hmp : matchParen (a :: as) with
      | some rest =>
        rw [hmp] at h
        exact mem_matchParen hmp (ih h)
      | none =>
        rw [hmp] at h
        rcases List.mem_cons.mp h with rfl | h
        · exact List.mem_cons_self _ _
        · exact List.mem_cons_of_mem a (ih h)

theorem mem_cleanParens {c : Char} {l : Str} (h : c ∈ cleanParens l) : c ∈ l :=
  mem_cleanParensAux _ h

/-- `int(s)` on a string without a minus sign yields a nonnegative
value. -/
theorem pyInt?_nonneg {s : Str} {v : Int} (hminus : '-' ∉ s)
    (h : pyInt? s = some v) : 0 ≤ v := by
  unfold pyInt? at h
  split at h
  · cases h
  · rename_i hne
    split at h
    · rename_i hhead
      have hmem : (strip s).headI ∈ strip s := by
        cases hst : strip s with
        | nil => exact absurd hst hne
        | cons a as => simp [List.headI]
      rw [hhead] at hmem
      exact absurd (mem_strip hmem) hminus
    · split at h
      · simp only [Option.map_eq_some', Option.bind_eq_bind,
          Option.bind_eq_some, Option.pure_def, Option.some.injEq] at h
        obtain ⟨n, ⟨a, _, rfl⟩, rfl⟩ := h
        exact Int.natCast_nonneg a
      · simp only [Option.map_eq_some', Option.bind_eq_bind,
          Option.bind_eq_some, Option.pure_def, Option.some.injEq] at h
        obtain ⟨n, ⟨a, _, rfl⟩, rfl⟩ := h
        exact Int.natCast_nonneg a

end MemLemmas

/-! ## Seconds-value preservation (spec 8, first property) -/

/-- Enhanced: when `normalize_time` succeeds, the normalized string has
the same `time_to_seconds` value as the original. -/
theorem FixEnh.normalize_preserves_value {s u : Str}
    (h : FixEnh.normalize_time s = some u) :
    FixEnh.time_to_seconds u = FixEnh.time_to_seconds s := by
  have h0 := h
  have hrhs : FixEnh.time_to_seconds s = FixEnh.parse3val u := by
    unfold FixEnh.time_to_seconds
    rw [h]
    rfl
  rw [hrhs]
  unfold FixEnh.normalize_time at h
  split at h
  · simp only [Option.bind_eq_bind, Option.bind_eq_some, Option.pure_def,
      Option.some.injEq] at h
    obtain ⟨minutes, _, seconds, _, rfl⟩ := h
    rw [FixEnh.t2s_render_eq]
  · simp only [Option.bind_eq_bind, Option.bind_eq_some, Option.pure_def,
      Option.some.injEq] at h
    obtain ⟨hours, _, minutes, _, seconds, _, rfl⟩ := h
    rw [FixEnh.t2s_render_eq]
  · simp only [Option.pure_def, Option.some.injEq] at h
    subst h
    unfold FixEnh.time_to_seconds
    rw [h0]
    rfl

/-- Membership in the basic fixer's cleaned string implies membership in
the original. -/
theorem mem_basicClean {c : Char} {s : Str}
    (h : c ∈ strip (takeBefore '(' (strip s))) : c ∈ s :=
  mem_strip (mem_takeBefore (mem_strip h))

/-- Basic: on a minus-free input, `normalize_time` either produces a
rendered `H:MM:SS` string with natural components and minute field
below 60, or returns the input unchanged with a `false` flag. -/
theorem FixBasic.normalize_time_cases {s : Str} (hminus : '-' ∉ s) :
    (∃ h2 m2 sec : Nat, m2 < 60 ∧
      (FixBasic.normalize_time s).1 =
        renderHMS (h2 : Int) (m2 : Int) (sec : Int)) ∨
    FixBasic.normalize_time s = (s, false) := by
  cases hmc : FixBasic.matchClean (strip (takeBefore '(' (strip s))) with
  | some v =>
    obtain ⟨hh, mm, ss⟩ := v
    by_cases hm60 : mm ≥ 60
    · refine Or.inl ⟨hh + mm / 60, mm % 60, ss, Nat.mod_lt _ (by omega), ?_⟩
      simp [FixBasic.normalize_time, hmc, hm60]
    · refine Or.inl ⟨hh, mm, ss, by omega, ?_⟩
      simp [FixBasic.normalize_time, hmc, hm60]
  | none =>
    cases hsp : splitOnChar ':' (strip (takeBefore '(' (strip s))) with
    | nil => exact Or.inr (by simp [FixBasic.normalize_time, hmc, hsp])
    | cons p0 rest =>
      cases rest with
      | nil => exact Or.inr (by simp [FixBasic.normalize_time, hmc, hsp])
      | cons p1 rest2 =>
        cases rest2 with
        | cons p2 rest3 =>
          exact Or.inr (by simp [FixBasic.normalize_time, hmc, hsp])
        | nil =>
          cases hm0 : pyInt? p0 with
          | none =>
            exact Or.inr (by simp [FixBasic.normalize_time, hmc, hsp, hm0])
          | some minutes =>
            cases hs0 : pyInt? p1 with
            | none =>
              exact Or.inr
                (by simp [FixBasic.normalize_time, hmc, hsp, hm0, hs0])
            | some seconds =>
              have hp0 : '-' ∉ p0 := fun hmem =>
                hminus (mem_basicClean (mem_splitOnChar
                  (by rw [hsp]; exact List.mem_cons_self _ _) hmem))
              have hp1 : '-' ∉ p1 := fun hmem =>
                hminus (mem_basicClean (mem_splitOnChar
                  (by rw [hsp];
                      exact List.mem_cons_of_mem _ (List.mem_cons_self _ _))
                  hmem))
              have hm : 0 ≤ minutes := pyInt?_nonneg hp0 hm0
              have hs : 0 ≤ seconds := pyInt?_nonneg hp1 hs0
              refine Or.inl ⟨(minutes / 60).toNat, (minutes % 60).toNat,
                seconds.toNat, by omega, ?_⟩
              have e1 : (((minutes / 60).toNat : Nat) : Int) = minutes / 60 := by
                omega
              have e2 : (((minutes % 60).toNat : Nat) : Int) = minutes % 60 := by
                omega
              have e3 : ((seconds.toNat : Nat) : Int) = seconds := by omega
              rw [e1, e2, e3]
              simp [FixBasic.normalize_time, hmc, hsp, hm0, hs0]

/-- Basic: normalizing never changes the `to_seconds` value of a
minus-free time string. -/
theorem FixBasic.normalize_keeps_value {s : Str} (hminus : '-' ∉ s) :
    FixBasic.to_seconds ((FixBasic.normalize_time s).1) =
      FixBasic.to_seconds s := by
  have hdef : FixBasic.to_seconds s =
      FixBasic.parse3 ((FixBasic.normalize_time s).1) := rfl
  rcases FixBasic.normalize_time_cases hminus with ⟨h2, m2, sec, hlt, hc⟩ | hc
  · rw [hc, hdef, hc]
    exact FixBasic.normalize_render_value h2 m2 sec hlt
  · rw [hc]

/-! ## Claims -/

/-- C1: in fix mode with dry-run off, both fixers create the timestamped
backup copy of the course document before the course file is
overwritten: whenever a run's event trace contains the course write, the
trace splits as `… backupWrite … courseWrite …`. -/
theorem backup_precedes_course_write :
    ∀ d : Bool,
      (FixBasic.FileEvent.courseWrite ∈ FixBasic.mainEvents d →
        ∃ l1 l2 l3, FixBasic.mainEvents d =
          l1 ++ FixBasic.FileEvent.backupWrite ::
            (l2 ++ FixBasic.FileEvent.courseWrite :: l3)) ∧
      (FixEnh.FileEvent.courseWrite ∈ FixEnh.mainEvents d →
        ∃ l1 l2 l3, FixEnh.mainEvents d =
          l1 ++ FixEnh.FileEvent.backupWrite ::
            (l2 ++ FixEnh.FileEvent.courseWrite :: l3)) := by
  intro d
  cases d with
  | false =>
    constructor
    · intro _
      exact ⟨[FixBasic.FileEvent.courseRead], [],
        [FixBasic.FileEvent.logWrite], rfl⟩
    · intro _
      exact ⟨[], [FixEnh.FileEvent.courseRead, FixEnh.FileEvent.auditRead],
        [FixEnh.FileEvent.reportWrite], rfl⟩
  | true =>
    constructor
    · intro h
      exact absurd h (by decide)
    · intro h
      exact absurd h (by decide)

/-- Witness for C1: the non-dry run of the basic fixer writes the backup
before the course file. -/
theorem backup_precedes_course_write_witness :
    ∃ l1 l2 l3, FixBasic.mainEvents false =
      l1 ++ FixBasic.FileEvent.backupWrite ::
        (l2 ++ FixBasic.FileEvent.courseWrite :: l3) :=
  (backup_precedes_course_write false).1 (by decide)

/-- C3 counterexample: the enhanced fixer's two-part path does not roll
seconds ≥ 60 into minutes — normalizing `"1:75"` yields `"0:01:75"`,
which is not a canonical `H:MM:SS` string. -/
theorem normalize_enhanced_two_part_no_roll :
    FixEnh.normalize_time ("1:75".toList) = some ("0:01:75".toList) ∧
    isCanonicalHMMSS ("0:01:75".toList) = false := by
  constructor
  · rfl
  · rfl

/-- C3 amended: normalization preserves the seconds value — in the
enhanced fixer `time_to_seconds` of the normalized string equals that of
the original whenever normalization succeeds, and in the basic fixer
`to_seconds` is unchanged for any minus-free string — and normalization
is a no-op on canonical `H:MM:SS` strings (identity result in the
enhanced fixer, unchanged string with `false` change flag in the basic
fixer).  Overflow rolling of a seconds field ≥ 60 into minutes happens
only in the enhanced three-part path, not in its two-part path nor in
the basic fixer. -/
theorem normalize_preserves_seconds :
    (∀ s u : Str, FixEnh.normalize_time s = some u →
        FixEnh.time_to_seconds u = FixEnh.time_to_seconds s) ∧
    (∀ s : Str, '-' ∉ s →
        FixBasic.to_seconds ((FixBasic.normalize_time s).1) =
          FixBasic.to_seconds s) ∧
    (∀ s : Str, isCanonicalHMMSS s = true →
        FixEnh.normalize_time s = some s ∧
        FixBasic.normalize_time s = (s, false)) :=
  ⟨fun _ _ h => FixEnh.normalize_preserves_value h,
   fun _ h => FixBasic.normalize_keeps_value h,
   fun _ h => ⟨FixEnh.normalize_time_canonical h,
     FixBasic.normalize_time_fixpoint h⟩⟩

/-- Witness for C3 at concrete inputs: `"1:75"` (enhanced), `"75:30"`
(basic), `"1:05:00"` (canonical no-op). -/
theorem normalize_preserves_seconds_witness :
    FixEnh.time_to_seconds ("0:01:75".toList) =
      FixEnh.time_to_seconds ("1:75".toList) ∧
    FixBasic.to_seconds ((FixBasic.normalize_time ("75:30".toList)).1) =
      FixBasic.to_seconds ("75:30".toList) ∧
    FixEnh.normalize_time ("1:05:00".toList) = some ("1:05:00".toList) :=
  ⟨normalize_preserves_seconds.1 ("1:75".toList) ("0:01:75".toList) (by rfl),
   normalize_preserves_seconds.2.1 ("75:30".toList) (by decide),
   (normalize_preserves_seconds.2.2 ("1:05:00".toList) (by rfl)).1⟩

/-- C8 counterexample: the enhanced `time_to_seconds` maps the
unparseable string `"abc"` to `0` rather than reporting failure, and the
repair pipeline uses that guessed value: in `c8Lesson` the `"abc"` entry
is sorted to the front of the repaired list (before `"0:01:40"`). -/
theorem unparseable_time_sorted_as_zero :
    FixEnh.time_to_seconds ("abc".toList) = some 0 ∧
    (FixEnh.fix_lesson_timestamps [] c8Lesson).map
        (fun r => r.updated.map (fun t => t.time)) =
      some ["abc".toList, "0:01:40".toList] := by
  constructor
  · rfl
  · rfl

/-- C8 amended: for a time string containing no colon at all, the basic
fixer's `to_seconds` reports failure (`None`) and leaves the string
alone, while the enhanced fixer's `normalize_time` returns the string
unchanged and its `time_to_seconds` guesses the value `0`, which the
enhanced repair then uses for range filtering and sorting; no fixer
flags such entries. -/
theorem unparseable_time_parse_results :
    ∀ s : Str, ':' ∉ s →
      FixBasic.to_seconds s = none ∧
      FixEnh.normalize_time s = some s ∧
      FixEnh.time_to_seconds s = some 0 := by
  intro s hcolon
  have hclean : (':' : Char) ∉ cleanParens (strip s) :=
    fun h => hcolon (mem_strip (mem_cleanParens h))
  have hbasicClean : (':' : Char) ∉ strip (takeBefore '(' (strip s)) :=
    fun h => hcolon (mem_basicClean h)
  have henh : FixEnh.normalize_time s = some s := by
    unfold FixEnh.normalize_time
    rw [splitOnChar_no_sep hclean]
    rfl
  refine ⟨?_, henh, ?_⟩
  · unfold FixBasic.to_seconds FixBasic.normalize_time FixBasic.matchClean
    rw [splitOnChar_no_sep hbasicClean]
    simp only []
    unfold FixBasic.parse3
    rw [splitOnChar_no_sep hcolon]
  · unfold FixEnh.time_to_seconds
    rw [henh]
    simp only [Option.bind_eq_bind, Option.some_bind]
    unfold FixEnh.parse3val
    rw [splitOnChar_no_sep hcolon]
    rfl

/-- Witness for C8 at the concrete input `"abc"`. -/
theorem unparseable_time_parse_results_witness :
    FixBasic.to_seconds ("abc".toList) = none ∧
    FixEnh.normalize_time ("abc".toList) = some ("abc".toList) ∧
    FixEnh.time_to_seconds ("abc".toList) = some 0 :=
  unparseable_time_parse_results ("abc".toList) (by decide)

/-- The order scan flags nothing exactly on non-decreasing key lists. -/
theorem AuditEnh.orderViol_eq_nil (l : List (Int × Str)) :
    AuditEnh.orderViol l = [] ↔ l.Chain' (fun a b => a.1 ≤ b.1) := by
  induction l with
  | nil => simp [AuditEnh.orderViol]
  | cons a rest ih =>
    cases rest with
    | nil => simp [AuditEnh.orderViol]
    | cons b rest2 =>
      rw [List.chain'_cons]
      by_cases hlt : b.1 < a.1
      · have : ¬ (a.1 ≤ b.1) := by omega
        simp [AuditEnh.orderViol, hlt, this]
      · have hab : a.1 ≤ b.1 := by omega
        simp [AuditEnh.orderViol, hlt, hab, ih]

/-- The density scan flags nothing exactly when consecutive keys are at
least `MIN_SEP_S` apart. -/
theorem AuditEnh.densityViol_eq_nil (l : List (Int × Str)) :
    AuditEnh.densityViol l = [] ↔
      l.Chain' (fun a b => AuditEnh.MIN_SEP_S ≤ b.1 - a.1) := by
  induction l with
  | nil => simp [AuditEnh.densityViol]
  | cons a rest ih =>
    cases rest with
    | nil => simp [AuditEnh.densityViol]
    | cons b rest2 =>
      rw [List.chain'_cons]
      by_cases hlt : b.1 - a.1 < AuditEnh.MIN_SEP_S
      · have : ¬ (AuditEnh.MIN_SEP_S ≤ b.1 - a.1) := by omega
        simp [AuditEnh.densityViol, hlt, this]
      · have hab : AuditEnh.MIN_SEP_S ≤ b.1 - a.1 := by omega
        simp [AuditEnh.densityViol, hlt, hab, ih]

/-- The coverage scan flags nothing exactly when consecutive keys are at
most `MAX_GAP_S` apart. -/
theorem AuditEnh.coverageViol_eq_nil (l : List (Int × Str)) :
    AuditEnh.coverageViol l = [] ↔
      l.Chain' (fun a b => b.1 - a.1 ≤ AuditEnh.MAX_GAP_S) := by
  induction l with
  | nil => simp [AuditEnh.coverageViol]
  | cons a rest ih =>
    cases rest with
    | nil => simp [AuditEnh.coverageViol]
    | cons b rest2 =>
      rw [List.chain'_cons]
      by_cases hgt : b.1 - a.1 > AuditEnh.MAX_GAP_S
      · have : ¬ (b.1 - a.1 ≤ AuditEnh.MAX_GAP_S) := by omega
        simp [AuditEnh.coverageViol, hgt, this]
      · have hab : b.1 - a.1 ≤ AuditEnh.MAX_GAP_S := by omega
        simp [AuditEnh.coverageViol, hgt, hab, ih]

/-- The first components of the enhanced audit's parsed pairs are the
`parsedTimes`. -/
theorem AuditEnh.parsed_map_fst (ts : List TS) :
    (ts.filterMap
      (fun t => (AuditEnh.to_seconds t.time).map (fun s => (s, t)))).map
        (fun p => p.1) =
      ts.filterMap (fun t => AuditEnh.to_seconds t.time) := by
  induction ts with
  | nil => rfl
  | cons t rest ih =>
    cases h : AuditEnh.to_seconds t.time with
    | none => simp [List.filterMap_cons, h, ih]
    | some k => simp [List.filterMap_cons, h, ih]

theorem chain'_of_short {α : Type} {R : α → α → Prop} {l : List α}
    (h : l.length ≤ 1) : l.Chain' R := by
  match l, h with
  | [], _ => exact List.chain'_nil
  | [a], _ => exact List.chain'_singleton a

theorem AuditEnh.mem_parsedPairs {lesson : Lesson} {k : Int} {t : TS} :
    (k, t) ∈ AuditEnh.parsedPairs lesson ↔
      t ∈ lesson.timestamps ∧ AuditEnh.to_seconds t.time = some k := by
  unfold AuditEnh.parsedPairs
  rw [List.mem_filterMap]
  constructor
  · rintro ⟨a, ha, hfa⟩
    obtain ⟨s', hs', heq⟩ := Option.map_eq_some'.mp hfa
    have h1 : s' = k := congrArg Prod.fst heq
    have h2 : a = t := congrArg Prod.snd heq
    subst h1
    subst h2
    exact ⟨ha, hs'⟩
  · rintro ⟨ht, hk⟩
    exact ⟨t, ht, by rw [hk]; rfl⟩

theorem AuditEnh.forall_parsedPairs {lesson : Lesson} {P : Int × TS → Prop} :
    (∀ p ∈ AuditEnh.parsedPairs lesson, P p) ↔
      ∀ t ∈ lesson.timestamps, ∀ k, AuditEnh.to_seconds t.time = some k →
        P (k, t) := by
  constructor
  · intro h t ht k hk
    exact h (k, t) (AuditEnh.mem_parsedPairs.mpr ⟨ht, hk⟩)
  · rintro h ⟨k, t⟩ hp
    obtain ⟨ht, hk⟩ := AuditEnh.mem_parsedPairs.mp hp
    exact h t ht k hk

theorem AuditEnh.parsedTimes_eq (lesson : Lesson) :
    AuditEnh.parsedTimes lesson =
      (AuditEnh.timesS lesson).map (fun p => p.1) := by
  unfold AuditEnh.parsedTimes AuditEnh.timesS
  rw [List.map_map]
  exact (AuditEnh.parsed_map_fst lesson.timestamps).symm

theorem AuditEnh.formatList_eq_nil (lesson : Lesson) :
    (AuditEnh.formatList lesson = []) ↔
      ∀ t ∈ lesson.timestamps, (AuditEnh.to_seconds t.time).isSome = true := by
  unfold AuditEnh.formatList
  rw [List.map_eq_nil_iff, List.filter_eq_nil_iff]
  refine forall_congr' (fun t => forall_congr' (fun ht => ?_))
  cases hx : AuditEnh.to_seconds t.time <;> simp [hx]

theorem AuditEnh.chainIff {lesson : Lesson} (R : Int → Int → Prop) :
    (AuditEnh.timesS lesson).Chain' (fun a b => R a.1 b.1) ↔
      (AuditEnh.parsedTimes lesson).Chain' R := by
  rw [AuditEnh.parsedTimes_eq, List.chain'_map]

theorem AuditEnh.rangeList_eq_nil {lesson : Lesson}
    (hdur : AuditEnh.is_clean_duration lesson.duration = true) :
    (AuditEnh.rangeList lesson = []) ↔
      ∀ d, AuditEnh.to_seconds lesson.duration = some d → d ≠ 0 →
        ∀ t ∈ lesson.timestamps, ∀ k,
          AuditEnh.to_seconds t.time = some k → 0 ≤ k ∧ k ≤ d := by
  unfold AuditEnh.rangeList AuditEnh.durationS
  rw [if_pos hdur]
  cases hd : AuditEnh.to_seconds lesson.duration with
  | none => simp
  | some d =>
    by_cases hd0 : d = 0
    · subst hd0
      simp
    · have hmatch : (match some d with
          | some d =>
            if d ≠ 0 then
              ((AuditEnh.parsedPairs lesson).filter
                  (fun p => decide (p.1 < 0) || decide (p.1 > d))).map
                (fun p => p.2.time)
            else []
          | none => ([] : List Str)) =
          ((AuditEnh.parsedPairs lesson).filter
              (fun p => decide (p.1 < 0) || decide (p.1 > d))).map
            (fun p => p.2.time) := by
        simp [hd0]
      rw [hmatch]
      rw [List.map_eq_nil_iff, List.filter_eq_nil_iff]
      constructor
      · intro h d' hd' hd'0 t ht k hk
        cases hd'
        have := h (k, t) (AuditEnh.mem_parsedPairs.mpr ⟨ht, hk⟩)
        simp only [Bool.or_eq_true, decide_eq_true_eq, not_or] at this
        omega
      · rintro h ⟨k, t⟩ hp
        obtain ⟨ht, hk⟩ := AuditEnh.mem_parsedPairs.mp hp
        have := h d rfl hd0 t ht k hk
        simp only [Bool.or_eq_true, decide_eq_true_eq, not_or]
        omega

theorem AuditEnh.coverageList_eq_nil (lesson : Lesson) :
    (AuditEnh.coverageList lesson = []) ↔
      (AuditEnh.parsedTimes lesson).Chain'
        (fun a b => b - a ≤ AuditEnh.MAX_GAP_S) := by
  unfold AuditEnh.coverageList
  by_cases hlen : (AuditEnh.timesS lesson).length > 1
  · rw [if_pos hlen, AuditEnh.coverageViol_eq_nil]
    exact AuditEnh.chainIff (fun a b => b - a ≤ AuditEnh.MAX_GAP_S)
  · rw [if_neg hlen]
    have hshort : (AuditEnh.parsedTimes lesson).length ≤ 1 := by
      rw [AuditEnh.parsedTimes_eq, List.length_map]
      omega
    simp [chain'_of_short hshort]

theorem AuditEnh.vagueList_eq_nil (lesson : Lesson) :
    (AuditEnh.vagueList lesson = []) ↔
      ∀ t ∈ lesson.timestamps, (AuditEnh.to_seconds t.time).isSome = true →
        AuditEnh.check_label_quality t.label = true := by
  unfold AuditEnh.vagueList
  rw [List.map_eq_nil_iff, List.filter_eq_nil_iff]
  constructor
  · intro h t ht hsome
    obtain ⟨k, hk⟩ := Option.isSome_iff_exists.mp hsome
    have := h (k, t) (AuditEnh.mem_parsedPairs.mpr ⟨ht, hk⟩)
    simpa using this
  · rintro h ⟨k, t⟩ hp
    obtain ⟨ht, hk⟩ := AuditEnh.mem_parsedPairs.mp hp
    simpa using h t ht (by rw [hk]; rfl)

theorem AuditEnh.weakList_eq_nil (lesson : Lesson) :
    (AuditEnh.weakList lesson = []) ↔
      ∀ t ∈ lesson.timestamps, (AuditEnh.to_seconds t.time).isSome = true →
        AuditEnh.check_description_quality t.description t.label = true := by
  unfold AuditEnh.weakList
  rw [List.map_eq_nil_iff, List.filter_eq_nil_iff]
  constructor
  · intro h t ht hsome
    obtain ⟨k, hk⟩ := Option.isSome_iff_exists.mp hsome
    have := h (k, t) (AuditEnh.mem_parsedPairs.mpr ⟨ht, hk⟩)
    simpa using this
  · rintro h ⟨k, t⟩ hp
    obtain ⟨ht, hk⟩ := AuditEnh.mem_parsedPairs.mp hp
    simpa using h t ht (by rw [hk]; rfl)

/-- C2 counterexample: in the basic audit the overall verdict ignores
the timestamp-format list — `c2Lesson` contains the malformed time
string `"junk"` (listed under `bad_format`, not matching `H:MM:SS`) yet
its overall verdict is "pass". -/
theorem audit_basic_pass_despite_malformed :
    (AuditBasic.auditLesson c2Lesson).overall = true ∧
    (AuditBasic.auditLesson c2Lesson).bad_format = ["junk".toList] ∧
    AuditBasic.is_h_mm_ss ("junk".toList) = false := by
  refine ⟨rfl, rfl, rfl⟩

/-- C2 amended: in the enhanced audit the overall verdict is "pass"
exactly when the duration string is clean `H:MM:SS`, every timestamp's
time parses, the parsed values satisfy the range check (skipped when the
parsed duration is 0), are non-decreasing, at least `MIN_SEP_S` apart
and at most `MAX_GAP_S` apart consecutively, and every parseable
entry's label and description pass the quality checks — so in the
enhanced audit a lesson with a malformed time string never passes; the
basic audit's verdict, by contrast, omits the timestamp-format check
(see the counterexample). -/
theorem audit_enhanced_verdict_iff :
    ∀ lesson : Lesson,
      ((AuditEnh.audit_lesson lesson).overall = true ↔
        (AuditEnh.is_clean_duration lesson.duration = true ∧
         (∀ t ∈ lesson.timestamps,
           (AuditEnh.to_seconds t.time).isSome = true) ∧
         (∀ d, AuditEnh.to_seconds lesson.duration = some d → d ≠ 0 →
           ∀ t ∈ lesson.timestamps, ∀ k,
             AuditEnh.to_seconds t.time = some k → 0 ≤ k ∧ k ≤ d) ∧
         (AuditEnh.parsedTimes lesson).Chain' (fun a b => a ≤ b) ∧
         (AuditEnh.parsedTimes lesson).Chain'
           (fun a b => AuditEnh.MIN_SEP_S ≤ b - a) ∧
         (AuditEnh.parsedTimes lesson).Chain'
           (fun a b => b - a ≤ AuditEnh.MAX_GAP_S) ∧
         (∀ t ∈ lesson.timestamps,
           (AuditEnh.to_seconds t.time).isSome = true →
           AuditEnh.check_label_quality t.label = true ∧
           AuditEnh.check_description_quality t.description t.label = true))) := by
  intro lesson
  show (AuditEnh.timestampsPass lesson && AuditEnh.summariesPass lesson)
      = true ↔ _
  unfold AuditEnh.timestampsPass AuditEnh.summariesPass
  simp only [Bool.and_eq_true, List.isEmpty_iff]
  constructor
  · rintro ⟨⟨⟨⟨⟨⟨hdur, hfmt⟩, hrange⟩, horder⟩, hdens⟩, hcov⟩, hvague, hweak⟩
    refine ⟨hdur, (AuditEnh.formatList_eq_nil lesson).mp hfmt,
      (AuditEnh.rangeList_eq_nil hdur).mp hrange,
      (AuditEnh.chainIff _).mp ((AuditEnh.orderViol_eq_nil _).mp horder),
      (AuditEnh.chainIff _).mp ((AuditEnh.densityViol_eq_nil _).mp hdens),
      (AuditEnh.coverageList_eq_nil lesson).mp hcov,
      fun t ht hs => ⟨(AuditEnh.vagueList_eq_nil lesson).mp hvague t ht hs,
        (AuditEnh.weakList_eq_nil lesson).mp hweak t ht hs⟩⟩
  · rintro ⟨hdur, hfmt, hrange, horder, hdens, hcov, hqual⟩
    refine ⟨⟨⟨⟨⟨⟨hdur, (AuditEnh.formatList_eq_nil lesson).mpr hfmt⟩,
      (AuditEnh.rangeList_eq_nil hdur).mpr hrange⟩,
      (AuditEnh.orderViol_eq_nil _).mpr ((AuditEnh.chainIff _).mpr horder)⟩,
      (AuditEnh.densityViol_eq_nil _).mpr ((AuditEnh.chainIff _).mpr hdens)⟩,
      (AuditEnh.coverageList_eq_nil lesson).mpr hcov⟩,
      (AuditEnh.vagueList_eq_nil lesson).mpr
        (fun t ht hs => (hqual t ht hs).1),
      (AuditEnh.weakList_eq_nil lesson).mpr
        (fun t ht hs => (hqual t ht hs).2)⟩

/-- C10: rendering a nonnegative number of seconds as `H:MM:SS` with
`seconds_to_time` and parsing it back with `time_to_seconds` returns the
original value. -/
theorem seconds_time_round_trip :
    ∀ n : Nat,
      FixEnh.time_to_seconds (FixEnh.seconds_to_time (n : Int)) =
        some (n : Int) :=
  fun n => FixEnh.time_to_seconds_seconds_to_time (n : Int)


/-- C7 counterexample: for the label "overview of databases" the basic
audit's label check (any token generic) flags it as vague, while the
basic fixer's `is_weak_label` (all tokens generic) accepts it, so the
fixer would not rewrite a label the audit reports as weak. -/
theorem quality_audit_fix_divergence :
    AuditBasic.vague_label ("overview of databases".toList) = true ∧
    FixBasic.is_weak_label ("overview of databases".toList) = false :=
  ⟨rfl, rfl⟩

/-- The label heuristics agree whenever the two tokenizations coincide
and no token of the label appears in either generic-term list. -/
theorem vague_iff_weak_label (label : Str)
    (hl : AuditBasic.words (strip label) = FixBasic.extract_words label)
    (hg : ∀ w ∈ (FixBasic.extract_words label).dedup,
        w ∉ AuditBasic.GENERIC_LABELS ∧ w ∉ FixBasic.GENERIC_LABELS) :
    AuditBasic.vague_label label = FixBasic.is_weak_label label := by
  by_cases h0 : label = []
  · subst h0
    have he : FixBasic.extract_words ([] : Str) = [] := rfl
    rw [he] at hl
    unfold AuditBasic.vague_label AuditBasic.word_count
    rw [hl]
    rfl
  · unfold AuditBasic.vague_label AuditBasic.word_count
      FixBasic.is_weak_label FixBasic.word_count
    rw [hl, if_neg h0]
    by_cases h2 : (FixBasic.extract_words label).length < 2
    · simp [h2]
    · by_cases h5 : (FixBasic.extract_words label).length > 5
      · simp [h2, h5]
      · have hneL : FixBasic.extract_words label ≠ [] := by
          intro hnil
          rw [hnil] at h2
          exact h2 (by decide)
        have hR : decide (∀ x ∈ FixBasic.extract_words label,
            x ∈ FixBasic.GENERIC_LABELS) = false := by
          rw [decide_eq_false_iff_not]
          intro hall
          obtain ⟨w, hw⟩ := List.exists_mem_of_ne_nil _ hneL
          exact (hg w (List.mem_dedup.mpr hw)).2 (hall w hw)
        have hL0 : (AuditBasic.GENERIC_LABELS.any
            fun g => decide (g ∈ FixBasic.extract_words label)) = false := by
          rw [List.any_eq_false]
          intro g hgmem
          simp only [Bool.not_eq_true, decide_eq_false_iff_not]
          intro hmem
          exact (hg g (List.mem_dedup.mpr hmem)).1 hgmem
        simp [h2, h5, hL0, hR]

/-- The description heuristics agree whenever the two tokenizations
coincide (for the label and for the description) and the overlap count
does not sit exactly on the 0.7 threshold, where the audit uses `>=` and
the fixer uses `>`. -/
theorem weak_desc_iff (desc label : Str)
    (hl : AuditBasic.words (strip label) = FixBasic.extract_words label)
    (hd : AuditBasic.words (strip desc) = FixBasic.extract_words desc)
    (hov : 10 * (((FixBasic.extract_words desc).dedup.filter
          (fun w => ((FixBasic.extract_words label).dedup.contains w))).length)
        ≠ 7 * ((FixBasic.extract_words desc).dedup.length)) :
    AuditBasic.weak_description desc label =
      FixBasic.is_weak_description desc label := by
  by_cases h0 : desc = []
  · subst h0
    have he : FixBasic.extract_words ([] : Str) = [] := rfl
    rw [he] at hd
    unfold AuditBasic.weak_description AuditBasic.word_count
    rw [hd]
    rfl
  · unfold AuditBasic.weak_description AuditBasic.word_count
      FixBasic.is_weak_description FixBasic.word_count
    rw [hl, hd, if_neg h0]
    by_cases h5 : (FixBasic.extract_words desc).length < 5
    · simp [h5]
    · by_cases h15 : (FixBasic.extract_words desc).length > 15
      · simp [h5, h15]
      · have hdne : (FixBasic.extract_words desc).dedup ≠ [] := by
          rw [Ne, List.dedup_eq_nil]
          intro hnil
          rw [hnil] at h5
          exact h5 (by decide)
        have hdpos : 0 < ((FixBasic.extract_words desc).dedup).length :=
          List.length_pos.mpr hdne
        have hov' : 10 * (((FixBasic.extract_words desc).dedup.filter
            (fun w => decide (w ∈ FixBasic.extract_words label))).length)
            ≠ 7 * ((FixBasic.extract_words desc).dedup.length) := by
          have hfc : ((FixBasic.extract_words desc).dedup.filter
              (fun w => ((FixBasic.extract_words label).dedup.contains w)))
              = ((FixBasic.extract_words desc).dedup.filter
              (fun w => decide (w ∈ FixBasic.extract_words label))) := by
            apply List.filter_congr
            intro w hw
            simp [List.mem_dedup]
          rwa [hfc] at hov
        by_cases hle : (FixBasic.extract_words label).dedup = []
        · have hfilt : ((FixBasic.extract_words desc).dedup.filter
              (fun w => ((FixBasic.extract_words label).dedup.contains w)))
                = [] := by
            rw [List.filter_eq_nil_iff]
            intro w hw
            rw [hle]
            simp
          simp only [hle, hdne, hfilt]
          simp [h5, h15, hdne]
        · simp [h5, h15, hdne, hle]
          omega

/-- C7 (amended): the audit-side and fixer-side quality heuristics agree
on every label/description pair on which their tokenizations coincide,
no label token occurs in either generic-term list, and the description
overlap does not sit exactly on the 0.7 threshold; outside those
conditions they diverge (different generic-term policies: any-token
versus all-tokens, different generic lists, and `>=` versus `>` at the
threshold). -/
theorem quality_heuristics_agree (label desc : Str)
    (hl : AuditBasic.words (strip label) = FixBasic.extract_words label)
    (hd : AuditBasic.words (strip desc) = FixBasic.extract_words desc)
    (hg : ∀ w ∈ (FixBasic.extract_words label).dedup,
        w ∉ AuditBasic.GENERIC_LABELS ∧ w ∉ FixBasic.GENERIC_LABELS)
    (hov : 10 * (((FixBasic.extract_words desc).dedup.filter
          (fun w => ((FixBasic.extract_words label).dedup.contains w))).length)
        ≠ 7 * ((FixBasic.extract_words desc).dedup.length)) :
    AuditBasic.vague_label label = FixBasic.is_weak_label label ∧
    AuditBasic.weak_description desc label =
      FixBasic.is_weak_description desc label :=
  ⟨vague_iff_weak_label label hl hg, weak_desc_iff desc label hl hd hov⟩

/-- C7 witness: the agreement theorem applied to a concrete pair. -/
theorem quality_heuristics_agree_witness :
    AuditBasic.vague_label ("Database Setup".toList) =
      FixBasic.is_weak_label ("Database Setup".toList) ∧
    AuditBasic.weak_description
        ("Connect the cluster and verify the credentials carefully".toList)
        ("Database Setup".toList) =
      FixBasic.is_weak_description
        ("Connect the cluster and verify the credentials carefully".toList)
        ("Database Setup".toList) :=
  quality_heuristics_agree ("Database Setup".toList)
    ("Connect the cluster and verify the credentials carefully".toList)
    (by decide) (by decide) (by decide) (by decide)


/-- C6 counterexample: on `c6Lesson` (two entries 5s apart, the later
description longer) the enhanced fixer keeps the EARLIER entry (label
"Vector Storage Setup"), merging the descriptions, instead of keeping
the longer-description entry; the basic fixer keeps the longer entry but
discards the other description without merging it. -/
theorem dense_merge_divergence :
    ((FixEnh.fix_lesson_timestamps [] c6Lesson).map (fun r =>
        r.updated.map (fun t => (t.time, t.label, t.description)))) =
      some [("0:00:05".toList, "Vector Storage Setup".toList,
        "Configure the vector storage today; Explore the query planner cost model".toList)] ∧
    ((FixBasic.process_lesson false c6Lesson).1.timestamps.map
        (fun t => (t.label, t.description))) =
      [("Query Planner Internals".toList,
        "Explore the query planner cost model".toList)] :=
  ⟨rfl, rfl⟩

/-- C6 (amended): for a consecutive pair closer than the minimum
separation, the enhanced fixer's de-densify scan keeps the earlier entry
unconditionally and merges the discarded description into it with the
separator "; ", while the basic fixer's scan removes the entry whose
description is shorter (the later one on a tie, so the earlier is kept
on ties) and logs the pair without merging any description text. -/
theorem dense_merge_policies (ka kb : Int) (a b : TS)
    (sa sb : Int) (ia ib : Nat) (c d : TS)
    (h1 : kb - ka < FixEnh.MIN_SEPARATION_S)
    (h2 : sb - sa < FixBasic.MIN_SEP_S) :
    FixEnh.mergeDense [(ka, a), (kb, b)] =
      ([(ka, { a with
          description := a.description ++ "; ".toList ++ b.description })],
       [FixEnh.Change.mergedClose a.time b.time]) ∧
    FixBasic.dedenseScanAux (sa, ia, c) [] [] [(sb, ib, d)] =
      ((if d.description.length > c.description.length then [ia] else [ib]),
       [(c.time, d.time)]) := by
  constructor
  · unfold FixEnh.mergeDense FixEnh.mergeDenseAux
    simp [h1]
    exact ⟨rfl, rfl⟩
  · unfold FixBasic.dedenseScanAux
    simp only [List.contains_nil, Bool.not_false, Bool.true_and,
      decide_eq_true_eq, if_pos h2]
    by_cases hc : List.length c.description < List.length d.description
    · simp [hc]
      rfl
    · simp [hc]
      rfl

/-- C6 witness: the policy theorem applied at a concrete dense pair. -/
theorem dense_merge_policies_witness :
    FixEnh.mergeDense
        [((5 : Int), (⟨"0:00:05".toList, "A B".toList, "p q".toList⟩ : TS)),
         ((10 : Int), (⟨"0:00:10".toList, "C D".toList, "r s t".toList⟩ : TS))] =
      ([((5 : Int), (⟨"0:00:05".toList, "A B".toList,
          "p q; r s t".toList⟩ : TS))],
       [FixEnh.Change.mergedClose "0:00:05".toList "0:00:10".toList]) ∧
    FixBasic.dedenseScanAux ((5 : Int), 0,
        (⟨"0:00:05".toList, "A B".toList, "p q".toList⟩ : TS)) [] []
        [((10 : Int), 1,
          (⟨"0:00:10".toList, "C D".toList, "r s t".toList⟩ : TS))] =
      ([0], [("0:00:05".toList, "0:00:10".toList)]) := by
  have h := dense_merge_policies 5 10
    (⟨"0:00:05".toList, "A B".toList, "p q".toList⟩ : TS)
    (⟨"0:00:10".toList, "C D".toList, "r s t".toList⟩ : TS)
    5 10 0 1
    (⟨"0:00:05".toList, "A B".toList, "p q".toList⟩ : TS)
    (⟨"0:00:10".toList, "C D".toList, "r s t".toList⟩ : TS)
    (by decide) (by decide)
  exact ⟨h.1, by rw [h.2]; rfl⟩


/-! ## Pipeline invariants of the enhanced fixer (spec 8, range and order) -/

theorem intToChars_no_minus {i : Int} (hi : 0 ≤ i) : '-' ∉ intToChars i := by
  unfold intToChars
  rw [if_neg (by omega)]
  intro hc
  obtain ⟨d, hd, he⟩ := natToChars_forall _ '-' hc
  exact (digitChar_props hd).2.2.2.1 he.symm

theorem pad02_no_minus {i : Int} (hi : 0 ≤ i) : '-' ∉ pad02 i := by
  unfold pad02
  by_cases h : 0 ≤ i ∧ i ≤ 9
  · rw [if_pos h]
    intro hc
    rcases List.mem_cons.mp hc with he | hc
    · exact absurd he (by decide)
    · obtain ⟨d, hd, he⟩ := natToChars_forall _ '-' hc
      exact (digitChar_props hd).2.2.2.1 he.symm
  · rw [if_neg h]
    exact intToChars_no_minus hi

theorem renderHMS_no_minus {h m s : Int} (hh : 0 ≤ h) (hm : 0 ≤ m)
    (hs : 0 ≤ s) : '-' ∉ renderHMS h m s := by
  intro hc
  unfold renderHMS at hc
  simp only [List.mem_append, List.mem_cons] at hc
  rcases hc with hc | he | hc | he | hc
  · exact intToChars_no_minus hh hc
  · exact absurd he (by decide)
  · exact pad02_no_minus hm hc
  · exact absurd he (by decide)
  · exact pad02_no_minus hs hc

/-- The enhanced normalizer maps minus-free strings to minus-free
strings. -/
theorem FixEnh.normalize_minus_free {s u : Str} (hminus : '-' ∉ s)
    (h : FixEnh.normalize_time s = some u) : '-' ∉ u := by
  have hmo : ∀ p ∈ splitOnChar ':' (cleanParens (strip s)), '-' ∉ p := by
    intro p hp hc
    exact hminus (mem_strip (mem_cleanParens (mem_splitOnChar hp hc)))
  unfold FixEnh.normalize_time at h
  split at h
  · rename_i p0 p1 heq
    simp only [Option.bind_eq_bind, Option.bind_eq_some, Option.pure_def,
      Option.some.injEq] at h
    obtain ⟨minutes, hm, seconds, hs, rfl⟩ := h
    have hm0 : 0 ≤ minutes := pyInt?_nonneg (hmo p0 (heq ▸ by simp)) hm
    have hs0 : 0 ≤ seconds := pyInt?_nonneg (hmo p1 (heq ▸ by simp)) hs
    exact renderHMS_no_minus (by omega) (by omega) hs0
  · rename_i p0 p1 p2 heq
    simp only [Option.bind_eq_bind, Option.bind_eq_some, Option.pure_def,
      Option.some.injEq] at h
    obtain ⟨hours, hh, minutes, hm, seconds, hs, rfl⟩ := h
    have hh0 : 0 ≤ hours := pyInt?_nonneg (hmo p0 (heq ▸ by simp)) hh
    have hm0 : 0 ≤ minutes := pyInt?_nonneg (hmo p1 (heq ▸ by simp)) hm
    have hs0 : 0 ≤ seconds := pyInt?_nonneg (hmo p2 (heq ▸ by simp)) hs
    exact renderHMS_no_minus (by omega) (by omega) (by omega)
  · simp only [Option.pure_def, Option.some.injEq] at h
    subst h
    exact hminus

/-- On a minus-free string, a successful `time_to_seconds` value is
nonnegative. -/
theorem FixEnh.t2s_nonneg {u : Str} {k : Int} (hminus : '-' ∉ u)
    (h : FixEnh.time_to_seconds u = some k) : 0 ≤ k := by
  unfold FixEnh.time_to_seconds at h
  simp only [Option.bind_eq_bind, Option.bind_eq_some] at h
  obtain ⟨w, hw, hp⟩ := h
  have hwm : '-' ∉ w := FixEnh.normalize_minus_free hminus hw
  unfold FixEnh.parse3val at hp
  split at hp
  · rename_i p0 p1 p2 heq
    have hmo : ∀ p ∈ splitOnChar ':' w, '-' ∉ p := by
      intro p hpp hc
      exact hwm (mem_splitOnChar hpp hc)
    simp only [Option.bind_eq_bind, Option.bind_eq_some, Option.pure_def,
      Option.some.injEq] at hp
    obtain ⟨hh, h1, mm, h2, ss, h3, rfl⟩ := hp
    have := pyInt?_nonneg (hmo p0 (heq ▸ by simp)) h1
    have := pyInt?_nonneg (hmo p1 (heq ▸ by simp)) h2
    have := pyInt?_nonneg (hmo p2 (heq ▸ by simp)) h3
    omega
  · simp only [Option.pure_def, Option.some.injEq] at hp
    omega


theorem mem_insertB {α : Type} (le : α → α → Bool) (x y : α) (l : List α) :
    y ∈ insertB le x l ↔ y = x ∨ y ∈ l := by
  induction l with
  | nil => simp [insertB]
  | cons h t ih =>
    simp only [insertB]
    by_cases hxh : le x h = true
    · simp [hxh]
    · rw [if_neg hxh]
      simp only [List.mem_cons, ih]
      tauto

theorem mem_sortBy {α : Type} (le : α → α → Bool) (l : List α) (y : α) :
    y ∈ sortBy le l ↔ y ∈ l := by
  induction l with
  | nil => simp [sortBy]
  | cons h t ih =>
    show y ∈ insertB le h (sortBy le t) ↔ _
    rw [mem_insertB, List.mem_cons, ih]

theorem chain'_insertB {α : Type} {le : α → α → Bool}
    (htot : ∀ a b, le a b = false → le b a = true) (x : α) {l : List α}
    (hl : l.Chain' (fun a b => le a b = true)) :
    (insertB le x l).Chain' (fun a b => le a b = true) := by
  induction l with
  | nil => simp [insertB]
  | cons h t ih =>
    simp only [insertB]
    by_cases hxh : le x h = true
    · rw [if_pos hxh]
      exact List.chain'_cons.mpr ⟨hxh, hl⟩
    · rw [if_neg hxh]
      have hhx : le h x = true := htot x h (by simpa using hxh)
      cases t with
      | nil => simp [insertB, hhx]
      | cons b t2 =>
        rw [List.chain'_cons] at hl
        obtain ⟨hhb, hbt⟩ := hl
        have ih2 := ih hbt
        simp only [insertB] at ih2 ⊢
        by_cases hxb : le x b = true
        · rw [if_pos hxb] at ih2 ⊢
          exact List.chain'_cons.mpr ⟨hhx, ih2⟩
        · rw [if_neg hxb] at ih2 ⊢
          exact List.chain'_cons.mpr ⟨hhb, ih2⟩

theorem chain'_sortBy {α : Type} {le : α → α → Bool}
    (htot : ∀ a b, le a b = false → le b a = true) (l : List α) :
    (sortBy le l).Chain' (fun a b => le a b = true) := by
  induction l with
  | nil => exact List.chain'_nil
  | cons h t ih => exact chain'_insertB htot h ih

theorem chain'_le_of_sublist {l1 l2 : List Int} (h : l1.Sublist l2)
    (hc : l2.Chain' (fun a b => a ≤ b)) :
    l1.Chain' (fun a b => a ≤ b) :=
  List.chain'_iff_pairwise.mpr
    (List.Pairwise.sublist h (List.chain'_iff_pairwise.mp hc))

theorem FixEnh.normalizeAll_sound :
    ∀ {ts : List TS} {ts2 : List TS} {cs : List FixEnh.Change},
    FixEnh.normalizeAll ts = some (ts2, cs) →
    ∀ t ∈ ts2, ∃ u ∈ ts, FixEnh.normalize_time u.time = some t.time := by
  intro ts
  induction ts with
  | nil =>
    intro ts2 cs h t ht
    simp only [FixEnh.normalizeAll, Option.some.injEq, Prod.mk.injEq] at h
    rw [← h.1] at ht
    cases ht
  | cons u rest ih =>
    intro ts2 cs h t ht
    simp only [FixEnh.normalizeAll, Option.bind_eq_bind, Option.bind_eq_some,
      Option.pure_def, Option.some.injEq, Prod.mk.injEq] at h
    obtain ⟨nt, hnt, ⟨rs, cs2⟩, hrec, heq1, heq2⟩ := h
    rw [← heq1] at ht
    rcases List.mem_cons.mp ht with rfl | ht
    · exact ⟨u, List.mem_cons_self u rest, hnt⟩
    · obtain ⟨v, hv, hvn⟩ := ih hrec t ht
      exact ⟨v, List.mem_cons_of_mem u hv, hvn⟩

theorem FixEnh.filterKeyLt_sound {D : Int} :
    ∀ {ts : List TS} {ts3 : List TS},
    FixEnh.filterKeyLt D ts = some ts3 →
    ∀ t ∈ ts3, t ∈ ts ∧ ∃ k, FixEnh.time_to_seconds t.time = some k ∧ k < D := by
  intro ts
  induction ts with
  | nil =>
    intro ts3 h t ht
    simp only [FixEnh.filterKeyLt, Option.some.injEq] at h
    rw [← h] at ht
    cases ht
  | cons u rest ih =>
    intro ts3 h t ht
    simp only [FixEnh.filterKeyLt, Option.bind_eq_bind, Option.bind_eq_some,
      Option.pure_def, Option.some.injEq] at h
    obtain ⟨k, hk, rs, hrec, heq⟩ := h
    rw [← heq] at ht
    by_cases hlt : k < D
    · rw [if_pos hlt] at ht
      rcases List.mem_cons.mp ht with rfl | ht
      · exact ⟨List.mem_cons_self t rest, k, hk, hlt⟩
      · obtain ⟨hmem, hex⟩ := ih hrec t ht
        exact ⟨List.mem_cons_of_mem u hmem, hex⟩
    · rw [if_neg hlt] at ht
      obtain ⟨hmem, hex⟩ := ih hrec t ht
      exact ⟨List.mem_cons_of_mem u hmem, hex⟩

theorem FixEnh.decorate_sound :
    ∀ {ts : List TS} {keyed : List (Int × TS)},
    FixEnh.decorate ts = some keyed →
    ∀ p ∈ keyed, p.2 ∈ ts ∧ FixEnh.time_to_seconds p.2.time = some p.1 := by
  intro ts
  induction ts with
  | nil =>
    intro keyed h p hp
    simp only [FixEnh.decorate, Option.some.injEq] at h
    rw [← h] at hp
    cases hp
  | cons u rest ih =>
    intro keyed h p hp
    simp only [FixEnh.decorate, Option.bind_eq_bind, Option.bind_eq_some,
      Option.pure_def, Option.some.injEq] at h
    obtain ⟨k, hk, rs, hrec, heq⟩ := h
    rw [← heq] at hp
    rcases List.mem_cons.mp hp with rfl | hp
    · exact ⟨List.mem_cons_self u rest, hk⟩
    · obtain ⟨hmem, hv⟩ := ih hrec p hp
      exact ⟨List.mem_cons_of_mem u hmem, hv⟩

theorem FixEnh.mergeDenseAux_sound :
    ∀ (fuel : Nat) (l : List (Int × TS)) (p : Int × TS),
    p ∈ (FixEnh.mergeDenseAux fuel l).1 →
    ∃ q ∈ l, q.1 = p.1 ∧ q.2.time = p.2.time := by
  intro fuel
  induction fuel with
  | zero =>
    intro l p hp
    cases hp
  | succ fuel ih =>
    intro l p hp
    cases l with
    | nil => cases hp
    | cons a rest =>
      obtain ⟨k, t⟩ := a
      simp only [FixEnh.mergeDenseAux] at hp
      rcases List.mem_cons.mp hp with rfl | hp
      · exact ⟨(k, t), List.mem_cons_self _ _, rfl, rfl⟩
      · obtain ⟨q, hq, hq1, hq2⟩ := ih _ p hp
        have hqr : q ∈ rest := (List.dropWhile_sublist _).mem hq
        exact ⟨q, List.mem_cons_of_mem _ hqr, hq1, hq2⟩

theorem FixEnh.mergeDenseAux_keys_sublist :
    ∀ (fuel : Nat) (l : List (Int × TS)),
    ((FixEnh.mergeDenseAux fuel l).1.map Prod.fst).Sublist
      (l.map Prod.fst) := by
  intro fuel
  induction fuel with
  | zero =>
    intro l
    exact List.nil_sublist _
  | succ fuel ih =>
    intro l
    cases l with
    | nil => exact List.nil_sublist _
    | cons a rest =>
      obtain ⟨k, t⟩ := a
      simp only [FixEnh.mergeDenseAux, List.map_cons]
      refine List.Sublist.cons₂ k ?_
      exact (ih _).trans ((List.dropWhile_sublist _).map Prod.fst)

theorem FixEnh.rewriteAll_times (kw : List Str) (title : Str) :
    ∀ (i : Nat) (ex : List Str) (ts : List TS),
    ((FixEnh.rewriteAll kw title i ex ts).1.map (fun t => t.time)) =
      ts.map (fun t => t.time) := by
  intro i ex ts
  induction ts generalizing i ex with
  | nil => rfl
  | cons t rest ih =>
    simp only [FixEnh.rewriteAll, List.map_cons]
    rw [ih]

theorem FixEnh.gapFills_sound {D : Int} :
    ∀ {l gs : List (Int × TS)} {cs : List FixEnh.Change},
    FixEnh.gapFills D l = some (gs, cs) →
    (l.map Prod.fst).Chain' (fun a b => a ≤ b) →
    ∀ p ∈ gs, FixEnh.time_to_seconds p.2.time = some p.1 ∧
      ∃ a ∈ l, ∃ b ∈ l, a.1 ≤ p.1 ∧ p.1 ≤ b.1 := by
  intro l
  induction l with
  | nil =>
    intro gs cs h hc p hp
    simp only [FixEnh.gapFills, Option.pure_def, Option.some.injEq,
      Prod.mk.injEq] at h
    rw [← h.1] at hp
    cases hp
  | cons a tl ih =>
    intro gs cs h hc p hp
    cases tl with
    | nil =>
      simp only [FixEnh.gapFills, Option.pure_def, Option.some.injEq,
        Prod.mk.injEq] at h
      rw [← h.1] at hp
      cases hp
    | cons b rest =>
      simp only [FixEnh.gapFills, Option.bind_eq_bind, Option.bind_eq_some,
        Option.pure_def, Option.some.injEq, Prod.mk.injEq] at h
      obtain ⟨⟨gs2, cs2⟩, hrec, h⟩ := h
      simp only [List.map_cons, List.chain'_cons] at hc
      obtain ⟨hab, hc2⟩ := hc
      have hc2' : ((b :: rest).map Prod.fst).Chain' (fun x y => x ≤ y) := by
        simpa using hc2
      by_cases hgap : 4 * (b.1 - a.1) > D
      · rw [if_pos hgap] at h
        simp only [Option.bind_eq_bind, Option.bind_eq_some, Option.pure_def,
          Option.some.injEq, Prod.mk.injEq] at h
        obtain ⟨k, hk, heq1, heq2⟩ := h
        rw [FixEnh.time_to_seconds_seconds_to_time] at hk
        injection hk with hk
        rw [← heq1] at hp
        rcases List.mem_cons.mp hp with rfl | hp
        · subst hk
          refine ⟨FixEnh.time_to_seconds_seconds_to_time _, a,
            List.mem_cons_self _ _, b,
            List.mem_cons_of_mem a (List.mem_cons_self _ _), ?_, ?_⟩ <;> omega
        · obtain ⟨hv, a2, ha2, b2, hb2, hb⟩ := ih hrec hc2' p hp
          exact ⟨hv, a2, List.mem_cons_of_mem a ha2, b2,
            List.mem_cons_of_mem a hb2, hb⟩
      · rw [if_neg hgap] at h
        simp only [Option.some.injEq, Prod.mk.injEq] at h
        rw [← h.1] at hp
        obtain ⟨hv, a2, ha2, b2, hb2, hb⟩ := ih hrec hc2' p hp
        exact ⟨hv, a2, List.mem_cons_of_mem a ha2, b2,
          List.mem_cons_of_mem a hb2, hb⟩

theorem filterMap_t2s_of_keys {l : List (Int × TS)}
    (h : ∀ p ∈ l, FixEnh.time_to_seconds p.2.time = some p.1) :
    (l.map (fun p => p.2.time)).map FixEnh.time_to_seconds =
      (l.map Prod.fst).map some := by
  induction l with
  | nil => rfl
  | cons p rest ih =>
    simp only [List.map_cons, List.cons.injEq]
    exact ⟨h p (List.mem_cons_self p rest),
      ih (fun q hq => h q (List.mem_cons_of_mem p hq))⟩


/-- Master invariant of the enhanced repair pipeline: a successful run
yields a duration parsing to some `D` and a keyed list `final` whose
second components carry exactly the output time strings, whose keys are
the `time_to_seconds` values of those strings, are sorted
non-decreasing, all lie strictly below `D`, and (when every input time
string is minus-free) are nonnegative. -/
theorem FixEnh.fix_pipeline {kw : List Str} {lesson : Lesson}
    {r : FixEnh.FixResult}
    (hfix : FixEnh.fix_lesson_timestamps kw lesson = some r) :
    ∃ (D : Int) (final : List (Int × TS)),
      FixEnh.time_to_seconds r.updatedDuration = some D ∧
      r.updated.map (fun t => t.time) = final.map (fun p => p.2.time) ∧
      (∀ p ∈ final, FixEnh.time_to_seconds p.2.time = some p.1) ∧
      ((final.map Prod.fst).Chain' (fun a b => a ≤ b)) ∧
      (∀ p ∈ final, p.1 < D) ∧
      ((∀ t ∈ lesson.timestamps, '-' ∉ t.time) → ∀ p ∈ final, 0 ≤ p.1) := by
  unfold FixEnh.fix_lesson_timestamps at hfix
  simp only [Option.bind_eq_bind, Option.bind_eq_some, Option.pure_def,
    Option.some.injEq] at hfix
  obtain ⟨duration2, hdur, D, hD, p2, hnorm, ts3, hfilt, keyed, hdec,
    fc, hfc, heq⟩ := hfix
  have htot : ∀ a b : Int × TS,
      FixEnh.leKey a b = false → FixEnh.leKey b a = true := by
    intro a b hab
    simp only [FixEnh.leKey, decide_eq_false_iff_not, not_le] at hab
    simp only [FixEnh.leKey, decide_eq_true_eq]
    omega
  have hsortedchain :
      (sortBy FixEnh.leKey keyed).Chain' (fun a b => FixEnh.leKey a b = true) :=
    chain'_sortBy htot keyed
  have hsortedkeys :
      ((sortBy FixEnh.leKey keyed).map Prod.fst).Chain' (fun a b => a ≤ b) := by
    rw [List.chain'_map]
    exact hsortedchain.imp (fun a b hab => by
      simpa [FixEnh.leKey] using hab)
  have hkeyed : ∀ p ∈ keyed,
      FixEnh.time_to_seconds p.2.time = some p.1 ∧ p.1 < D ∧
      ((∀ t ∈ lesson.timestamps, '-' ∉ t.time) → 0 ≤ p.1) := by
    intro p hp
    obtain ⟨hpts3, hval⟩ := FixEnh.decorate_sound hdec p hp
    obtain ⟨hpts2, k, hk, hkD⟩ := FixEnh.filterKeyLt_sound hfilt _ hpts3
    have hkp : k = p.1 := by
      rw [hval] at hk
      injection hk with h2
      omega
    refine ⟨hval, by omega, ?_⟩
    intro hminus
    obtain ⟨u, hu, hnu⟩ := FixEnh.normalizeAll_sound hnorm _ hpts2
    have hmf : '-' ∉ p.2.time :=
      FixEnh.normalize_minus_free (hminus u hu) hnu
    exact FixEnh.t2s_nonneg hmf hval
  have hmerged : ∀ p ∈ (FixEnh.mergeDense (sortBy FixEnh.leKey keyed)).1,
      FixEnh.time_to_seconds p.2.time = some p.1 ∧ p.1 < D ∧
      ((∀ t ∈ lesson.timestamps, '-' ∉ t.time) → 0 ≤ p.1) := by
    intro p hp
    obtain ⟨q, hq, hq1, hq2⟩ := FixEnh.mergeDenseAux_sound _ _ p hp
    have hqk : q ∈ keyed := (mem_sortBy _ _ _).mp hq
    obtain ⟨hv, hD2, hnn⟩ := hkeyed q hqk
    rw [hq2, hq1] at hv
    rw [hq1] at hD2 hnn
    exact ⟨hv, hD2, hnn⟩
  have hmkeys :
      (((FixEnh.mergeDense (sortBy FixEnh.leKey keyed)).1.map
        Prod.fst)).Chain' (fun a b => a ≤ b) :=
    chain'_le_of_sublist (FixEnh.mergeDenseAux_keys_sublist _ _) hsortedkeys
  unfold FixEnh.coverageStep at hfc
  by_cases hlen : (FixEnh.mergeDense (sortBy FixEnh.leKey keyed)).1.length > 1
  · rw [if_pos hlen] at hfc
    simp only [Option.bind_eq_bind, Option.bind_eq_some, Option.pure_def,
      Option.some.injEq] at hfc
    obtain ⟨gc, hgaps, hfceq⟩ := hfc
    have hgapsp := FixEnh.gapFills_sound hgaps hmkeys
    subst hfceq
    subst heq
    refine ⟨D, sortBy FixEnh.leKey
      ((FixEnh.mergeDense (sortBy FixEnh.leKey keyed)).1 ++ gc.1),
      hD, ?_, ?_, ?_, ?_, ?_⟩
    · show ((FixEnh.rewriteAll kw lesson.title 0 []
          ((sortBy FixEnh.leKey
            ((FixEnh.mergeDense (sortBy FixEnh.leKey keyed)).1 ++ gc.1)).map
            (fun p => p.2))).1.map (fun t => t.time)) = _
      rw [FixEnh.rewriteAll_times, List.map_map]
      rfl
    · intro p hp
      rcases List.mem_append.mp ((mem_sortBy _ _ _).mp hp) with hpm | hpg
      · exact (hmerged p hpm).1
      · exact (hgapsp p hpg).1
    · have hc := chain'_sortBy htot
        ((FixEnh.mergeDense (sortBy FixEnh.leKey keyed)).1 ++ gc.1)
      rw [List.chain'_map]
      exact hc.imp (fun a b hab => by
        simpa [FixEnh.leKey] using hab)
    · intro p hp
      rcases List.mem_append.mp ((mem_sortBy _ _ _).mp hp) with hpm | hpg
      · exact (hmerged p hpm).2.1
      · obtain ⟨_, a, ha, b, hb, _, hpb⟩ := hgapsp p hpg
        have := (hmerged b hb).2.1
        omega
    · intro hminus p hp
      rcases List.mem_append.mp ((mem_sortBy _ _ _).mp hp) with hpm | hpg
      · exact (hmerged p hpm).2.2 hminus
      · obtain ⟨_, a, ha, b, hb, hpa, _⟩ := hgapsp p hpg
        have := (hmerged a ha).2.2 hminus
        omega
  · rw [if_neg hlen] at hfc
    simp only [Option.pure_def, Option.some.injEq] at hfc
    subst hfc
    subst heq
    refine ⟨D, (FixEnh.mergeDense (sortBy FixEnh.leKey keyed)).1,
      hD, ?_, ?_, ?_, ?_, ?_⟩
    · show ((FixEnh.rewriteAll kw lesson.title 0 []
          (((FixEnh.mergeDense (sortBy FixEnh.leKey keyed)).1).map
            (fun p => p.2))).1.map (fun t => t.time)) = _
      rw [FixEnh.rewriteAll_times, List.map_map]
      rfl
    · intro p hp
      exact (hmerged p hp).1
    · exact hmkeys
    · intro p hp
      exact (hmerged p hp).2.1
    · intro hminus p hp
      exact (hmerged p hp).2.2 hminus


/-- C4 counterexample: the enhanced range filter is strict, so the
`c4Lesson` timestamp whose time equals the duration exactly (600s) is
dropped from the repaired list instead of being retained; and the basic
fixer applies no range filter at all, retaining the `c4bLesson`
timestamp at 1200s although the duration is 600s. -/
theorem at_duration_entry_dropped :
    FixEnh.time_to_seconds ("0:10:00".toList) = some 600 ∧
    c4Lesson.duration = "0:10:00".toList ∧
    (c4Lesson.timestamps.map (fun t => t.time)) = ["0:10:00".toList] ∧
    (FixEnh.fix_lesson_timestamps [] c4Lesson).map (fun r => r.updated) =
      some [] ∧
    ((FixBasic.process_lesson false c4bLesson).1.timestamps.map
      (fun t => t.time)) = ["0:20:00".toList] ∧
    FixBasic.to_seconds ("0:20:00".toList) = some 1200 ∧
    FixBasic.to_seconds c4bLesson.duration = some 600 :=
  ⟨rfl, rfl, rfl, rfl, rfl, rfl, rfl⟩

/-- C4 (amended): in the enhanced fixer, when the pipeline succeeds on a
lesson whose time strings are minus-free, every repaired timestamp
parses to a seconds value `k` with `0 ≤ k < D` where `D` is the seconds
value of the updated duration — the upper bound is strict, so an entry
exactly at the duration is excluded, not retained, and the basic fixer
enforces no range bound at all. -/
theorem fix_range_invariant (kw : List Str) (lesson : Lesson)
    (r : FixEnh.FixResult)
    (hfix : FixEnh.fix_lesson_timestamps kw lesson = some r)
    (hminus : ∀ t ∈ lesson.timestamps, '-' ∉ t.time) :
    ∀ t ∈ r.updated, ∃ k D,
      FixEnh.time_to_seconds t.time = some k ∧
      FixEnh.time_to_seconds r.updatedDuration = some D ∧
      0 ≤ k ∧ k < D := by
  intro t ht
  obtain ⟨D, final, hD, htimes, hvals, _, hub, hnn⟩ := FixEnh.fix_pipeline hfix
  have htm : t.time ∈ final.map (fun p => p.2.time) := by
    rw [← htimes]
    exact List.mem_map_of_mem _ ht
  obtain ⟨p, hp, hpt⟩ := List.mem_map.mp htm
  exact ⟨p.1, D, hpt ▸ hvals p hp, hD, hnn hminus p hp, hub p hp⟩

/-- C4 witness: the range invariant applied to `c5Lesson` and the first
entry of its repaired list. -/
theorem fix_range_invariant_witness :
    ∃ k D, FixEnh.time_to_seconds ("0:00:05".toList) = some k ∧
      FixEnh.time_to_seconds ("1:00:00".toList) = some D ∧
      0 ≤ k ∧ k < D := by
  have h := fix_range_invariant [] c5Lesson
    ⟨"1:00:00".toList,
     [⟨"0:00:05".toList, "Query Planner Internals".toList,
       "Explore the query planner cost model in depth".toList⟩,
      ⟨"0:00:20".toList, "Vector Storage Setup".toList,
       "Configure the vector database schema for fast retrieval".toList⟩],
     []⟩ rfl (by decide)
  exact h ⟨"0:00:05".toList, "Query Planner Internals".toList,
    "Explore the query planner cost model in depth".toList⟩
    (List.mem_cons_self _ _)

/-- C5 counterexample: the basic fixer never re-sorts; on `c5Lesson`
(entries at 20s then 5s, far apart) `process_lesson` leaves the list in
its original, non-monotonic order. -/
theorem basic_repair_leaves_unsorted :
    ((FixBasic.process_lesson false c5Lesson).1.timestamps.map
      (fun t => t.time)) = ["0:00:20".toList, "0:00:05".toList] ∧
    FixBasic.to_seconds ("0:00:20".toList) = some 20 ∧
    FixBasic.to_seconds ("0:00:05".toList) = some 5 :=
  ⟨rfl, rfl, rfl⟩

/-- C5 (amended): in the enhanced fixer, a successful repair yields a
timestamp list in which every time string parses and the seconds values
are sorted non-decreasing; the basic fixer's `process_lesson` performs
no re-sort, so its output can remain out of order. -/
theorem fix_output_sorted (kw : List Str) (lesson : Lesson)
    (r : FixEnh.FixResult)
    (hfix : FixEnh.fix_lesson_timestamps kw lesson = some r) :
    ∃ ks : List Int,
      r.updated.map (fun t => FixEnh.time_to_seconds t.time) = ks.map some ∧
      ks.Chain' (fun a b => a ≤ b) := by
  obtain ⟨D, final, hD, htimes, hvals, hchain, _, _⟩ := FixEnh.fix_pipeline hfix
  refine ⟨final.map Prod.fst, ?_, hchain⟩
  have hp : r.updated.map (fun t => FixEnh.time_to_seconds t.time) =
      (r.updated.map (fun t => t.time)).map FixEnh.time_to_seconds := by
    rw [List.map_map]
    rfl
  rw [hp, htimes, filterMap_t2s_of_keys hvals]

/-- C5 witness: the sortedness theorem applied to `c5Lesson`. -/
theorem fix_output_sorted_witness :
    ∃ ks : List Int,
      ((⟨"1:00:00".toList,
        [⟨"0:00:05".toList, "Query Planner Internals".toList,
          "Explore the query planner cost model in depth".toList⟩,
         ⟨"0:00:20".toList, "Vector Storage Setup".toList,
          "Configure the vector database schema for fast retrieval".toList⟩],
        []⟩ : FixEnh.FixResult).updated.map
          (fun t => FixEnh.time_to_seconds t.time)) = ks.map some ∧
      ks.Chain' (fun a b => a ≤ b) :=
  fix_output_sorted [] c5Lesson
    ⟨"1:00:00".toList,
     [⟨"0:00:05".toList, "Query Planner Internals".toList,
       "Explore the query planner cost model in depth".toList⟩,
      ⟨"0:00:20".toList, "Vector Storage Setup".toList,
       "Configure the vector database schema for fast retrieval".toList⟩],
     []⟩ rfl


theorem FixEnh.normalizeAll_id :
    ∀ {ts : List TS},
    (∀ t ∈ ts, FixEnh.normalize_time t.time = some t.time) →
    FixEnh.normalizeAll ts = some (ts, []) := by
  intro ts
  induction ts with
  | nil => intro _; rfl
  | cons t rest ih =>
    intro h
    have ht := h t (List.mem_cons_self t rest)
    have hrest := ih (fun u hu => h u (List.mem_cons_of_mem t hu))
    simp only [FixEnh.normalizeAll, ht, hrest, Option.bind_eq_bind,
      Option.some_bind, Option.pure_def, Option.some.injEq]
    simp

theorem FixEnh.filterKeyLt_id {D : Int} :
    ∀ {ts : List TS},
    (∀ t ∈ ts, ∃ k, FixEnh.time_to_seconds t.time = some k ∧ k < D) →
    FixEnh.filterKeyLt D ts = some ts := by
  intro ts
  induction ts with
  | nil => intro _; rfl
  | cons t rest ih =>
    intro h
    obtain ⟨k, hk, hkD⟩ := h t (List.mem_cons_self t rest)
    have hrest := ih (fun u hu => h u (List.mem_cons_of_mem t hu))
    simp only [FixEnh.filterKeyLt, hk, hrest, Option.bind_eq_bind,
      Option.some_bind, Option.pure_def, Option.some.injEq]
    rw [if_pos hkD]

theorem FixEnh.decorate_snd :
    ∀ {ts : List TS} {keyed : List (Int × TS)},
    FixEnh.decorate ts = some keyed → keyed.map Prod.snd = ts := by
  intro ts
  induction ts with
  | nil =>
    intro keyed h
    simp only [FixEnh.decorate, Option.some.injEq] at h
    rw [← h]
    rfl
  | cons t rest ih =>
    intro keyed h
    simp only [FixEnh.decorate, Option.bind_eq_bind, Option.bind_eq_some,
      Option.pure_def, Option.some.injEq] at h
    obtain ⟨k, hk, rs, hrec, heq⟩ := h
    rw [← heq, List.map_cons, ih hrec]

theorem sortBy_of_chain' {α : Type} {le : α → α → Bool} :
    ∀ {l : List α}, l.Chain' (fun a b => le a b = true) → sortBy le l = l := by
  intro l
  induction l with
  | nil => intro _; rfl
  | cons h t ih =>
    intro hc
    show insertB le h (sortBy le t) = h :: t
    cases t with
    | nil => rfl
    | cons b t2 =>
      rw [List.chain'_cons] at hc
      obtain ⟨hhb, hc2⟩ := hc
      rw [ih hc2]
      simp only [insertB, if_pos hhb]

theorem FixEnh.mergeDenseAux_id :
    ∀ (l : List (Int × TS)) (fuel : Nat), l.length ≤ fuel →
    l.Chain' (fun a b => a.1 + FixEnh.MIN_SEPARATION_S ≤ b.1) →
    FixEnh.mergeDenseAux fuel l = (l, []) := by
  intro l
  induction l with
  | nil =>
    intro fuel _ _
    cases fuel <;> rfl
  | cons a rest ih =>
    intro fuel hf hc
    cases fuel with
    | zero => simp at hf
    | succ f =>
      obtain ⟨k, t⟩ := a
      cases rest with
      | nil =>
        have h0 : FixEnh.mergeDenseAux f [] = ([], []) := by
          cases f <;> rfl
        simp only [FixEnh.mergeDenseAux, List.takeWhile_nil, List.dropWhile_nil,
          h0, List.foldl_nil, List.map_nil, List.nil_append]
      | cons b rest2 =>
        rw [List.chain'_cons] at hc
        obtain ⟨hab, hc2⟩ := hc
        have hnlt : ¬ (b.1 - k < FixEnh.MIN_SEPARATION_S) := by omega
        have htw : (b :: rest2).takeWhile
            (fun p => decide (p.1 - k < FixEnh.MIN_SEPARATION_S)) = [] := by
          rw [List.takeWhile_cons]
          simp [hnlt]
        have hdw : (b :: rest2).dropWhile
            (fun p => decide (p.1 - k < FixEnh.MIN_SEPARATION_S)) =
              b :: rest2 := by
          rw [List.dropWhile_cons]
          simp [hnlt]
        simp only [FixEnh.mergeDenseAux, htw, hdw,
          ih f (by simpa using hf) hc2, List.foldl_nil, List.map_nil,
          List.nil_append]

theorem FixEnh.gapFills_id {D : Int} :
    ∀ {l : List (Int × TS)},
    l.Chain' (fun a b => 4 * (b.1 - a.1) ≤ D) →
    FixEnh.gapFills D l = some ([], []) := by
  intro l
  induction l with
  | nil => intro _; rfl
  | cons a tl ih =>
    intro hc
    cases tl with
    | nil => rfl
    | cons b rest =>
      rw [List.chain'_cons] at hc
      obtain ⟨hab, hc2⟩ := hc
      have hng : ¬ (4 * (b.1 - a.1) > D) := by omega
      simp only [FixEnh.gapFills, ih hc2, Option.bind_eq_bind,
        Option.some_bind]
      rw [if_neg hng]
      rfl

theorem FixEnh.rewriteAll_id (kw : List Str) (title : Str) :
    ∀ (i : Nat) (existing : List Str) (ts : List TS),
    (∀ t ∈ ts, FixEnh.entryTextOK t = true) →
    ((ts.map (fun t => t.label)).Nodup) →
    (∀ t ∈ ts, t.label ∉ existing) →
    FixEnh.rewriteAll kw title i existing ts = (ts, []) := by
  intro i existing ts
  induction ts generalizing i existing with
  | nil => intro _ _ _; rfl
  | cons t rest ih =>
    intro hok hnodup hnin
    have h1 := hok t (List.mem_cons_self t rest)
    simp only [FixEnh.entryTextOK, Bool.and_eq_true, Bool.not_eq_true',
      Bool.or_eq_false_iff] at h1
    obtain ⟨⟨⟨⟨hA, hB⟩, hC⟩, hE⟩, ⟨⟨hD1, hD2⟩, hD3⟩, hD4⟩ := h1
    have hcont : existing.contains t.label = false := by
      simpa using hnin t (List.mem_cons_self t rest)
    have hsplit : (∀ x ∈ rest, ¬ x.label = t.label) ∧
        ((rest.map (fun t => t.label)).Nodup) := by
      simpa using hnodup
    obtain ⟨hheadlab, htaillab⟩ := hsplit
    have hrest := ih (i + 1) (existing ++ [t.label])
      (fun u hu => hok u (List.mem_cons_of_mem t hu))
      htaillab
      (fun u hu hmem => by
        rcases List.mem_append.mp hmem with hm | hm
        · exact hnin u (List.mem_cons_of_mem t hu) hm
        · rw [List.mem_singleton] at hm
          exact hheadlab u hu hm)
    simp only [FixEnh.rewriteAll, hA, hB, hC, hE, hD1, hD2, hD3, hD4, hcont,
      Bool.or_self, Bool.or_false, Bool.false_or, Bool.false_and,
      Bool.and_false, if_neg, ite_false, Bool.false_eq_true, if_false,
      hrest]
    rfl


/-- C9 counterexample: the fixer is not idempotent.  On `c9Lesson`
(single time `"1:75"`) the first full fix pass rewrites the time to
`"0:01:75"` (the two-part path does not roll seconds), and a second pass
changes the document again, to `"0:02:15"` — so the second run both
mutates the document and records a change. -/
theorem fixer_not_idempotent :
    (FixEnh.applyFix [] c9Lesson).map
        (fun l => l.timestamps.map (fun t => t.time)) =
      some [("0:01:75".toList)] ∧
    ((FixEnh.applyFix [] c9Lesson).bind (FixEnh.applyFix [])).map
        (fun l => l.timestamps.map (fun t => t.time)) =
      some [("0:02:15".toList)] ∧
    ((FixEnh.applyFix [] c9Lesson).bind (FixEnh.applyFix [])) ≠
      FixEnh.applyFix [] c9Lesson :=
  ⟨rfl, rfl, by decide⟩

theorem FixEnh.chainOKB_chain' {D : Int} :
    ∀ {l : List Int}, FixEnh.chainOKB D l = true →
    l.Chain' (fun a b => a + FixEnh.MIN_SEPARATION_S ≤ b ∧ 4 * (b - a) ≤ D) := by
  intro l
  induction l with
  | nil => intro _; exact List.chain'_nil
  | cons a tl ih =>
    intro h
    cases tl with
    | nil => simp
    | cons b rest =>
      simp only [FixEnh.chainOKB, Bool.and_eq_true, decide_eq_true_eq] at h
      obtain ⟨⟨h1, h2⟩, h3⟩ := h
      exact List.chain'_cons.mpr ⟨⟨h1, h2⟩, ih h3⟩

/-- C9 (amended): a lesson is a fixed point of the enhanced fixer when
every pipeline step is the identity on it — `cleanLesson` demands that
the duration and every time string normalize to themselves, every
seconds value lies in `[0, D)`, consecutive values are sorted at least
`MIN_SEPARATION_S` apart and within the coverage bound `4·gap ≤ D`,
every label/description passes the rewrite checks, and labels are
pairwise distinct.  On such a lesson the fix pass records zero changes
and `main` leaves the document unchanged; on other documents a second
run can record further changes (see the counterexample). -/
theorem clean_lesson_fixed_point (kw : List Str) (lesson : Lesson)
    (h : FixEnh.cleanLesson lesson = true) :
    FixEnh.fix_lesson_timestamps kw lesson =
      some ⟨lesson.duration, lesson.timestamps, []⟩ ∧
    FixEnh.applyFix kw lesson = some lesson := by
  unfold FixEnh.cleanLesson at h
  cases hd : FixEnh.time_to_seconds lesson.duration with
  | none =>
    rw [hd] at h
    simp at h
  | some D =>
    cases hdec : FixEnh.decorate lesson.timestamps with
    | none =>
      rw [hd, hdec] at h
      simp at h
    | some keyed =>
      rw [hd, hdec] at h
      simp only [Bool.and_eq_true, decide_eq_true_eq, List.all_eq_true] at h
      obtain ⟨⟨⟨⟨⟨hdnorm, hts⟩, hbnd⟩, hchain⟩, hok⟩, hnodup⟩ := h
      have hts2 : ∀ t ∈ lesson.timestamps,
          FixEnh.normalize_time t.time = some t.time := by
        intro t ht
        simpa using hts t ht
      have hok2 : ∀ t ∈ lesson.timestamps, FixEnh.entryTextOK t = true :=
        fun t ht => hok t ht
      have hsnd := FixEnh.decorate_snd hdec
      have hn : FixEnh.normalizeAll lesson.timestamps =
          some (lesson.timestamps, []) := FixEnh.normalizeAll_id hts2
      have hkeys : ∀ t ∈ lesson.timestamps,
          ∃ k, FixEnh.time_to_seconds t.time = some k ∧ k < D := by
        intro t ht
        rw [← hsnd] at ht
        obtain ⟨p, hp, hpe⟩ := List.mem_map.mp ht
        obtain ⟨_, hv⟩ := FixEnh.decorate_sound hdec p hp
        refine ⟨p.1, ?_, ?_⟩
        · rw [← hpe]
          exact hv
        · have := hbnd p.1 (List.mem_map_of_mem Prod.fst hp)
          simp only [decide_eq_true_eq] at this
          exact this.2
      have hf : FixEnh.filterKeyLt D lesson.timestamps =
          some lesson.timestamps := FixEnh.filterKeyLt_id hkeys
      have hchainpairs : keyed.Chain' (fun a b =>
          a.1 + FixEnh.MIN_SEPARATION_S ≤ b.1 ∧ 4 * (b.1 - a.1) ≤ D) := by
        have hc := FixEnh.chainOKB_chain' hchain
        rw [List.chain'_map] at hc
        exact hc
      have hsort : sortBy FixEnh.leKey keyed = keyed := by
        refine sortBy_of_chain' (hchainpairs.imp ?_)
        intro a b hab
        have h15 := hab.1
        simp only [FixEnh.leKey, decide_eq_true_eq]
        have hM : FixEnh.MIN_SEPARATION_S = 15 := rfl
        omega
      have hmerge : FixEnh.mergeDense keyed = (keyed, []) := by
        unfold FixEnh.mergeDense
        exact FixEnh.mergeDenseAux_id keyed keyed.length (le_refl _)
          (hchainpairs.imp (fun a b hab => hab.1))
      have hcov : FixEnh.coverageStep D keyed = some (keyed, []) := by
        unfold FixEnh.coverageStep
        by_cases hlen : keyed.length > 1
        · rw [if_pos hlen]
          have hg : FixEnh.gapFills D keyed = some ([], []) :=
            FixEnh.gapFills_id (hchainpairs.imp (fun a b hab => hab.2))
          simp only [hg, Option.bind_eq_bind, Option.some_bind,
            List.append_nil, hsort]
          rfl
        · rw [if_neg hlen]
          rfl
      have hTR : (lesson.timestamps.any
          (fun t => decide (t.label = "TO_REVIEW".toList))) = false := by
        rw [List.any_eq_false]
        intro t ht
        have h1 := hok2 t ht
        simp only [FixEnh.entryTextOK, Bool.and_eq_true, Bool.not_eq_true',
          Bool.or_eq_false_iff] at h1
        simpa using h1.1.2
      have hrw : FixEnh.rewriteAll kw lesson.title 0 [] lesson.timestamps =
          (lesson.timestamps, []) :=
        FixEnh.rewriteAll_id kw lesson.title 0 [] lesson.timestamps hok2
          hnodup (by simp)
      have hfixres : FixEnh.fix_lesson_timestamps kw lesson =
          some ⟨lesson.duration, lesson.timestamps, []⟩ := by
        unfold FixEnh.fix_lesson_timestamps
        rw [hdnorm]
        simp only [Option.bind_eq_bind, Option.some_bind, hd, hn, hf, hdec,
          hsort, hmerge, hcov, hsnd, hrw, hTR]
        simp
      refine ⟨hfixres, ?_⟩
      unfold FixEnh.applyFix
      rw [hfixres]
      simp

/-- C9 witness: `c9CleanLesson` satisfies `cleanLesson` and is a fixed
point of the fix pass. -/
theorem clean_lesson_fixed_point_witness :
    FixEnh.fix_lesson_timestamps [] c9CleanLesson =
      some ⟨c9CleanLesson.duration, c9CleanLesson.timestamps, []⟩ ∧
    FixEnh.applyFix [] c9CleanLesson = some c9CleanLesson :=
  clean_lesson_fixed_point [] c9CleanLesson (by rfl)

end CourseTs
